import Mathlib

/-!
# Verification of the aivory agent runtime against its specification

Shallow embedding of the agent's core subsystems (value-capture engine,
exception-capture builder, manual capture entry point, breakpoint registry
and trace hook, backend transport queue and reconnect loop), translated
from the Python sources in `aivory_monitor/`, together with proofs that
settle the stated spec claims.

Machine integers do not arise (Python integers are unbounded); 32-bit
arithmetic inside SHA-256 is modelled on `Nat` with explicit `% 2^32`.
-/

namespace Aivory

/-! ## SHA-256 (`hashlib.sha256(x).hexdigest()`)

The fingerprint rule and the byte-string rendering both rely on the standard
library's SHA-256 and lower-case hex encoding.  These are external to the
repository, so they are embedded here directly from the FIPS 180-4
definition: a pure function from a byte sequence (list of naturals `< 256`)
to the 32-digest bytes, plus Python's `bytes.hex()` lower-case hex encoding.
-/

/-- 32-bit modular addition. -/
def add32 (a b : Nat) : Nat := (a + b) % 4294967296

/-- 32-bit right rotation (arguments are kept `< 2^32` by construction). -/
def rotr32 (x n : Nat) : Nat := ((x >>> n) ||| (x <<< (32 - n))) % 4294967296

/-- SHA-256 Σ₀. -/
def bigSigma0 (x : Nat) : Nat := rotr32 x 2 ^^^ rotr32 x 13 ^^^ rotr32 x 22

/-- SHA-256 Σ₁. -/
def bigSigma1 (x : Nat) : Nat := rotr32 x 6 ^^^ rotr32 x 11 ^^^ rotr32 x 25

/-- SHA-256 σ₀. -/
def smallSigma0 (x : Nat) : Nat := rotr32 x 7 ^^^ rotr32 x 18 ^^^ (x >>> 3)

/-- SHA-256 σ₁. -/
def smallSigma1 (x : Nat) : Nat := rotr32 x 17 ^^^ rotr32 x 19 ^^^ (x >>> 10)

/-- SHA-256 Ch (complement written as xor with the all-ones 32-bit word). -/
def sha2Ch (x y z : Nat) : Nat := (x &&& y) ^^^ ((x ^^^ 4294967295) &&& z)

/-- SHA-256 Maj. -/
def sha2Maj (x y z : Nat) : Nat := (x &&& y) ^^^ (x &&& z) ^^^ (y &&& z)

/-- The 64 SHA-256 round constants (FIPS 180-4 §4.2.2, written in
decimal). -/
def sha2K : List Nat :=
  [1116352408, 1899447441, 3049323471, 3921009573, 961987163,
   1508970993, 2453635748, 2870763221, 3624381080, 310598401,
   607225278, 1426881987, 1925078388, 2162078206, 2614888103,
   3248222580, 3835390401, 4022224774, 264347078, 604807628,
   770255983, 1249150122, 1555081692, 1996064986, 2554220882,
   2821834349, 2952996808, 3210313671, 3336571891, 3584528711,
   113926993, 338241895, 666307205, 773529912, 1294757372,
   1396182291, 1695183700, 1986661051, 2177026350, 2456956037,
   2730485921, 2820302411, 3259730800, 3345764771, 3516065817,
   3600352804, 4094571909, 275423344, 430227734, 506948616,
   659060556, 883997877, 958139571, 1322822218, 1537002063,
   1747873779, 1955562222, 2024104815, 2227730452, 2361852424,
   2428436474, 2756734187, 3204031479, 3329325298]

/-- Working state of the compression function. -/
structure Sha2State where
  a : Nat
  b : Nat
  c : Nat
  d : Nat
  e : Nat
  f : Nat
  g : Nat
  h : Nat

/-- Initial hash value (FIPS 180-4 §5.3.3, written in decimal). -/
def sha2Init : Sha2State :=
  ⟨1779033703, 3144134277, 1013904242, 2773480762,
   1359893119, 2600822924, 528734635, 1541459225⟩

/-- One compression round: consumes one `(K_t, W_t)` pair. -/
def sha2Round (s : Sha2State) (kw : Nat × Nat) : Sha2State :=
  let t1 := add32 s.h (add32 (bigSigma1 s.e) (add32 (sha2Ch s.e s.f s.g) (add32 kw.1 kw.2)))
  let t2 := add32 (bigSigma0 s.a) (sha2Maj s.a s.b s.c)
  ⟨add32 t1 t2, s.a, s.b, s.c, add32 s.d t1, s.e, s.f, s.g⟩

/-- Big-endian 32-bit words from a byte list (groups of four). -/
def bytesToWords : List Nat → List Nat
  | a :: b :: c :: d :: rest => (((a * 256 + b) * 256 + c) * 256 + d) :: bytesToWords rest
  | _ => []

/-- Extend the 16 message words to the 64-entry schedule. -/
def sha2Schedule (ws : Array Nat) : Array Nat :=
  (List.range 48).foldl
    (fun w _ =>
      w.push (add32
        (add32 (smallSigma1 (w.getD (w.size - 2) 0)) (w.getD (w.size - 7) 0))
        (add32 (smallSigma0 (w.getD (w.size - 15) 0)) (w.getD (w.size - 16) 0))))
    ws

/-- Process one 64-byte block. -/
def sha2Block (h0 : Sha2State) (block : List Nat) : Sha2State :=
  let ws := (sha2Schedule (Array.mk (bytesToWords block))).toList
  let s := (sha2K.zip ws).foldl sha2Round h0
  ⟨add32 h0.a s.a, add32 h0.b s.b, add32 h0.c s.c, add32 h0.d s.d,
   add32 h0.e s.e, add32 h0.f s.f, add32 h0.g s.g, add32 h0.h s.h⟩

/-- 64-bit big-endian length encoding used by the padding. -/
def be64 (n : Nat) : List Nat :=
  [n >>> 56 % 256, n >>> 48 % 256, n >>> 40 % 256, n >>> 32 % 256,
   n >>> 24 % 256, n >>> 16 % 256, n >>> 8 % 256, n % 256]

/-- FIPS 180-4 padding: `0x80`, zeros to 56 mod 64, bit length in 64 bits. -/
def sha2Pad (msg : List Nat) : List Nat :=
  msg ++ 0x80 :: List.replicate ((119 - msg.length % 64) % 64) 0 ++ be64 (msg.length * 8)

/-- Split into blocks of 64 bytes. -/
def toBlocks (l : List Nat) : List (List Nat) :=
  if h : l = [] then []
  else l.take 64 :: toBlocks (l.drop 64)
termination_by l.length
decreasing_by
  simp only [List.length_drop]
  have : l.length ≠ 0 := fun hl => h (List.eq_nil_of_length_eq_zero hl)
  omega

/-- The SHA-256 state after absorbing a whole message. -/
def sha256States (msg : List Nat) : Sha2State :=
  (toBlocks (sha2Pad msg)).foldl sha2Block sha2Init

/-- A 32-bit word as four big-endian bytes. -/
def wordBytes (x : Nat) : List Nat :=
  [x >>> 24 % 256, x >>> 16 % 256, x >>> 8 % 256, x % 256]

/-- The 32 digest bytes of SHA-256 of a byte sequence. -/
def sha256Digest (msg : List Nat) : List Nat :=
  let s := sha256States msg
  wordBytes s.a ++ wordBytes s.b ++ wordBytes s.c ++ wordBytes s.d ++
  wordBytes s.e ++ wordBytes s.f ++ wordBytes s.g ++ wordBytes s.h

/-- Lower-case hex digit for a nibble. -/
def hexChar (n : Nat) : Char :=
  if n < 10 then Char.ofNat (48 + n) else Char.ofNat (87 + n)

/-- The two lower-case hex characters of one byte. -/
def byteHexChars (b : Nat) : List Char :=
  [hexChar (b / 16 % 16), hexChar (b % 16)]

/-- The character list of the lower-case hex encoding of a byte list. -/
def hexCharsOfBytes (bs : List Nat) : List Char :=
  bs.foldr (fun b acc => byteHexChars b ++ acc) []

/-- Lower-case hex encoding of a byte list (Python `bytes.hex()` /
`hexdigest()` format). -/
def hexOfBytes (bs : List Nat) : String :=
  String.mk (hexCharsOfBytes bs)

/-- UTF-8 encoding of one character (Python `str.encode()`). -/
def utf8EncodeCharNat (c : Char) : List Nat :=
  let n := c.toNat
  if n < 0x80 then [n]
  else if n < 0x800 then
    [0xC0 ||| (n >>> 6), 0x80 ||| (n &&& 0x3F)]
  else if n < 0x10000 then
    [0xE0 ||| (n >>> 12), 0x80 ||| ((n >>> 6) &&& 0x3F), 0x80 ||| (n &&& 0x3F)]
  else
    [0xF0 ||| (n >>> 18), 0x80 ||| ((n >>> 12) &&& 0x3F),
     0x80 ||| ((n >>> 6) &&& 0x3F), 0x80 ||| (n &&& 0x3F)]

/-- UTF-8 bytes of a string (Python `str.encode()`). -/
def utf8Bytes (s : String) : List Nat :=
  s.data.foldr (fun c acc => utf8EncodeCharNat c ++ acc) []

/-- `hashlib.sha256(s.encode()).hexdigest()`. -/
def sha256Hex (s : String) : String :=
  hexOfBytes (sha256Digest (utf8Bytes s))

/-! ### Shape lemmas for the digest -/

/-- Two characters per byte, at the level of the character list. -/
theorem hexCharsOfBytes_length (bs : List Nat) :
    (hexCharsOfBytes bs).length = 2 * bs.length := by
  induction bs with
  | nil => rfl
  | cons b rest ih =>
    simp only [hexCharsOfBytes, List.foldr_cons, List.length_append, byteHexChars,
      List.length_cons, List.length_nil] at *
    omega

/-- Hex encoding produces two characters per byte. -/
theorem hexOfBytes_length (bs : List Nat) : (hexOfBytes bs).length = 2 * bs.length := by
  simp only [hexOfBytes, String.length]
  exact hexCharsOfBytes_length bs

/-- The digest always has 32 bytes. -/
theorem sha256Digest_length (msg : List Nat) : (sha256Digest msg).length = 32 := by
  simp [sha256Digest, wordBytes]

/-- A hex digest always has 64 characters. -/
theorem sha256Hex_length (s : String) : (sha256Hex s).length = 64 := by
  rw [sha256Hex, hexOfBytes_length, sha256Digest_length]

/-- Membership in the lower-case hex alphabet. -/
def isLowerHexChar (c : Char) : Bool :=
  "0123456789abcdef".data.contains c

/-- Every nibble maps into the lower-case hex alphabet. -/
theorem hexChar_isLowerHex : ∀ n, n < 16 → isLowerHexChar (hexChar n) = true := by decide

/-- Every character of a hex encoding is a lower-case hex digit. -/
theorem hexOfBytes_lower (bs : List Nat) :
    ∀ c ∈ (hexOfBytes bs).data, isLowerHexChar c = true := by
  simp only [hexOfBytes, hexCharsOfBytes]
  induction bs with
  | nil => intro c hc; simp at hc
  | cons b rest ih =>
    intro c hc
    simp only [List.foldr_cons] at hc
    rcases List.mem_append.1 hc with h | h
    · simp only [byteHexChars, List.mem_cons, List.not_mem_nil, or_false] at h
      rcases h with rfl | rfl
      · exact hexChar_isLowerHex _ (Nat.mod_lt _ (by omega))
      · exact hexChar_isLowerHex _ (Nat.mod_lt _ (by omega))
    · exact ih c h

/-! ## Python string slicing

Python `s[:n]` slices by code point; `String.data` is the code-point list,
so the slice is `String.mk (s.data.take n)`. -/

/-- Python `s[:n]`. -/
def pyTake (s : String) (n : Nat) : String := String.mk (s.data.take n)

/-- Length of a Python slice. -/
theorem pyTake_length (s : String) (n : Nat) :
    (pyTake s n).length = min n s.length := by
  have h : (pyTake s n).length = (s.data.take n).length := rfl
  rw [h, List.length_take]
  rfl

/-- Characters of a slice come from the original string. -/
theorem pyTake_subset (s : String) (n : Nat) :
    ∀ c ∈ (pyTake s n).data, c ∈ s.data := by
  intro c hc
  exact List.mem_of_mem_take hc

/-! ## Stack frames and the exception fingerprint
(`aivory_monitor/exceptions/capture.py`) -/

/-- `StackFrameInfo` dataclass.  `line_number` is `Optional[int]` in the
source; Python integers are unbounded, hence `Int`. -/
structure StackFrameInfo where
  method_name : String
  file_name : Option String := none
  file_path : Option String := none
  line_number : Option Int := none
  class_name : Option String := none
  is_native : Bool := false
  source_available : Bool := true
deriving DecidableEq, Repr

/-- `frame.line_number or 0`: `None` renders as `0` (and a stored `0` is
itself falsy, so it also renders as `0` — the same value). -/
def lineOrZero (l : Option Int) : Int := l.getD 0

/-- The fingerprint part contributed by one frame:
`f'{frame.method_name}:{frame.line_number or 0}'`. -/
def framePart (f : StackFrameInfo) : String :=
  f.method_name ++ ":" ++ toString (lineOrZero f.line_number)

/-- The frame-collection loop of `_calculate_fingerprint`: walk the stack,
skip native frames, stop after five parts have been added (`added` is the
running counter). -/
def fingerprintLoop : List StackFrameInfo → Nat → List String
  | [], _ => []
  | f :: rest, added =>
    if 5 ≤ added then []
    else if f.is_native then fingerprintLoop rest added
    else framePart f :: fingerprintLoop rest (added + 1)

/-- `ExceptionCaptureBuilder._calculate_fingerprint`: join the exception
type name and the collected frame parts with `':'`, SHA-256, and keep the
first 16 hex characters. -/
def calculateFingerprint (exceptionType : String) (stackTrace : List StackFrameInfo) :
    String :=
  pyTake (sha256Hex (String.intercalate ":" (exceptionType :: fingerprintLoop stackTrace 0))) 16

/-- The fingerprint rule exactly as the spec words it: `SHA-256(
exception_type || ':' || f1 || ':' || ... )` hex-truncated to 16
characters, where the `f_i` come from the first up-to-5 non-native frames
in order and missing line numbers render as `0`. -/
def specFingerprint (exceptionType : String) (stackTrace : List StackFrameInfo) :
    String :=
  pyTake (sha256Hex (String.intercalate ":"
    (exceptionType :: ((stackTrace.filter (fun f => !f.is_native)).take 5).map framePart))) 16

/-- The source's counting loop collects exactly the formatted first
`5 - added` non-native frames. -/
theorem fingerprintLoop_eq (stackTrace : List StackFrameInfo) :
    ∀ added, fingerprintLoop stackTrace added =
      ((stackTrace.filter (fun f => !f.is_native)).take (5 - added)).map framePart := by
  induction stackTrace with
  | nil => intro added; simp [fingerprintLoop]
  | cons f rest ih =>
    intro added
    by_cases h5 : 5 ≤ added
    · have : 5 - added = 0 := by omega
      simp [fingerprintLoop, h5, this]
    · by_cases hn : f.is_native
      · simp [fingerprintLoop, h5, hn, ih]
      · have hs : 5 - added = (5 - (added + 1)) + 1 := by omega
        simp [fingerprintLoop, h5, hn, ih, hs]

/-- The two fingerprint definitions agree. -/
theorem calculateFingerprint_eq_spec (et : String) (st : List StackFrameInfo) :
    calculateFingerprint et st = specFingerprint et st := by
  simp [calculateFingerprint, specFingerprint, fingerprintLoop_eq]

/-- `':'.join([x]) = x`, needed for the no-frame fingerprint. -/
theorem intercalate_single (x : String) : String.intercalate ":" [x] = x := rfl

/-! ## The value model

A Python runtime value, as far as the capture engines inspect one: the type
dispatch in `_capture_value` distinguishes `None`, `bool`/`int`/`float`,
`str`, `bytes`, `list`/`tuple`, `dict`, `set`, and generic objects.  A
`float` carries its `str()` rendering (text formatting of IEEE floats is
outside the scope of the claims).  `dict` keys are modelled as strings (for
string keys Python's `str(k)` is the key itself); `f_locals` and attribute
tables are string-keyed in Python already.  An `obj` carries its public
attribute table in `dir()` order; `callable` marks a callable value (the
only fact the engines test about one). -/
inductive PyValue where
  | none
  | bool (b : Bool)
  | int (n : Int)
  | float (repr : String)
  | str (s : String)
  | bytes (bs : List Nat)
  | list (elems : List PyValue)
  | tuple (elems : List PyValue)
  | dict (entries : List (String × PyValue))
  | set (elems : List PyValue)
  | obj (typeName : String) (attrs : List (String × PyValue))
  | callable (typeName : String)

/-- `type(value).__name__`. -/
def PyValue.typeName : PyValue → String
  | .none => "NoneType"
  | .bool _ => "bool"
  | .int _ => "int"
  | .float _ => "float"
  | .str _ => "str"
  | .bytes _ => "bytes"
  | .list _ => "list"
  | .tuple _ => "tuple"
  | .dict _ => "dict"
  | .set _ => "set"
  | .obj tn _ => tn
  | .callable tn => tn

/-- `callable(value)`. -/
def PyValue.isCallable : PyValue → Bool
  | .callable _ => true
  | _ => false

/-- `str(value)` for the primitive branch (`bool`, `int`, `float`). -/
def pyPrimStr : PyValue → String
  | .bool b => if b then "True" else "False"
  | .int n => toString n
  | .float r => r
  | _ => ""

/-- The capture bounds of `AgentConfig` (`aivory_monitor/config.py`); the
fields the capture engines read. -/
structure AgentConfig where
  max_capture_depth : Nat
  max_string_length : Nat
  max_collection_size : Nat

/-- The `AgentConfig` defaults (`AIVORY_MAX_DEPTH` 10, `AIVORY_MAX_STRING_LENGTH`
1000, `AIVORY_MAX_COLLECTION_SIZE` 100). -/
def defaultConfig : AgentConfig := ⟨10, 1000, 100⟩

/-- `CapturedVariable` dataclass: one node of the snapshot tree.
`children` is an insertion-ordered string-keyed mapping (a Python `dict`),
`array_elements` an ordered sequence. -/
inductive CapturedVariable where
  | mk (name : String) (type : String) (value : String)
       (is_null : Bool) (is_truncated : Bool)
       (children : List (String × CapturedVariable))
       (array_elements : List CapturedVariable)
       (array_length : Option Nat)

/-- Field accessor. -/
def CapturedVariable.name : CapturedVariable → String
  | .mk n _ _ _ _ _ _ _ => n

/-- Field accessor. -/
def CapturedVariable.type : CapturedVariable → String
  | .mk _ t _ _ _ _ _ _ => t

/-- Field accessor. -/
def CapturedVariable.value : CapturedVariable → String
  | .mk _ _ v _ _ _ _ _ => v

/-- Field accessor. -/
def CapturedVariable.is_null : CapturedVariable → Bool
  | .mk _ _ _ b _ _ _ _ => b

/-- Field accessor. -/
def CapturedVariable.is_truncated : CapturedVariable → Bool
  | .mk _ _ _ _ b _ _ _ => b

/-- Field accessor. -/
def CapturedVariable.children : CapturedVariable → List (String × CapturedVariable)
  | .mk _ _ _ _ _ c _ _ => c

/-- Field accessor. -/
def CapturedVariable.array_elements : CapturedVariable → List CapturedVariable
  | .mk _ _ _ _ _ _ a _ => a

/-- Field accessor. -/
def CapturedVariable.array_length : CapturedVariable → Option Nat
  | .mk _ _ _ _ _ _ _ l => l

/-- Python `dict` assignment `d[k] = v` on an insertion-ordered mapping:
replace in place when the key exists, append otherwise. -/
def dictInsert (l : List (String × CapturedVariable)) (k : String)
    (v : CapturedVariable) : List (String × CapturedVariable) :=
  match l with
  | [] => [(k, v)]
  | (k', v') :: rest => if k' = k then (k, v) :: rest else (k', v') :: dictInsert rest k v

/-! ## The exception-path capture engine
(`ExceptionCaptureBuilder._capture_value`, `capture.py` lines 200-345).

The Python loops over sequences/dicts stop once `max_collection_size`
elements have been processed; they are rendered as recursions carrying the
remaining budget.  The object branch slices the first
`max_collection_size` public (`dir()`) names and then drops callables,
which is the same as consuming the budget per public name and skipping
callables without capture. -/

mutual

/-- `ExceptionCaptureBuilder._capture_value`. -/
def captureValue (cfg : AgentConfig) (name : String) (v : PyValue) (depth : Nat) :
    CapturedVariable :=
  if cfg.max_capture_depth < depth then
    .mk name v.typeName "<max depth exceeded>" false true [] [] Option.none
  else
    match v with
    | .none => .mk name "NoneType" "None" true false [] [] Option.none
    | .bool b => .mk name "bool" (pyPrimStr (.bool b)) false false [] [] Option.none
    | .int n => .mk name "int" (toString n) false false [] [] Option.none
    | .float r => .mk name "float" r false false [] [] Option.none
    | .str s =>
        let truncated := decide (cfg.max_string_length < s.length)
        .mk name "str" (if truncated then pyTake s cfg.max_string_length else s)
          false truncated [] [] Option.none
    | .bytes bs =>
        let truncated := decide (cfg.max_string_length < bs.length)
        .mk name "bytes"
          (hexOfBytes (if truncated then bs.take cfg.max_string_length else bs))
          false truncated [] [] Option.none
    | .list elems =>
        .mk name "list" ("list[" ++ toString elems.length ++ "]") false
          (decide (cfg.max_collection_size < elems.length)) []
          (captureSeq cfg elems depth 0 cfg.max_collection_size)
          (Option.some elems.length)
    | .tuple elems =>
        .mk name "tuple" ("tuple[" ++ toString elems.length ++ "]") false
          (decide (cfg.max_collection_size < elems.length)) []
          (captureSeq cfg elems depth 0 cfg.max_collection_size)
          (Option.some elems.length)
    | .dict entries =>
        .mk name "dict" ("dict[" ++ toString entries.length ++ "]") false
          (decide (cfg.max_collection_size < entries.length))
          (captureDict cfg entries depth cfg.max_collection_size []) [] Option.none
    | .set elems =>
        .mk name "set" ("set[" ++ toString elems.length ++ "]") false
          (decide (cfg.max_collection_size < elems.length)) []
          (captureSeq cfg elems depth 0 cfg.max_collection_size)
          (Option.some elems.length)
    | .obj tn attrs =>
        .mk name tn ("<" ++ tn ++ ">") false false
          (captureAttrs cfg attrs depth cfg.max_collection_size []) [] Option.none
    | .callable tn =>
        .mk name tn ("<" ++ tn ++ ">") false false [] [] Option.none

/-- The sequence loop: index each child as `[i]`, stop when the budget is
exhausted, recurse one level deeper. -/
def captureSeq (cfg : AgentConfig) (elems : List PyValue)
    (depth idx remaining : Nat) : List CapturedVariable :=
  match remaining with
  | 0 => []
  | r + 1 =>
    match elems with
    | [] => []
    | e :: rest =>
        captureValue cfg ("[" ++ toString idx ++ "]") e (depth + 1) ::
        captureSeq cfg rest depth (idx + 1) r

/-- The mapping loop: keys stringified and truncated to 100 characters,
budget-bounded, recursing one level deeper. -/
def captureDict (cfg : AgentConfig) (entries : List (String × PyValue))
    (depth remaining : Nat) (acc : List (String × CapturedVariable)) :
    List (String × CapturedVariable) :=
  match remaining with
  | 0 => acc
  | r + 1 =>
    match entries with
    | [] => acc
    | (k, v) :: rest =>
        let ks := pyTake k 100
        captureDict cfg rest depth r
          (dictInsert acc ks (captureValue cfg ks v (depth + 1)))

/-- The generic-object loop: skip private names without consuming budget
(they are filtered before the slice), consume budget per public name, and
skip callables. -/
def captureAttrs (cfg : AgentConfig) (attrs : List (String × PyValue))
    (depth remaining : Nat) (acc : List (String × CapturedVariable)) :
    List (String × CapturedVariable) :=
  match remaining with
  | 0 => acc
  | r + 1 =>
    match attrs with
    | [] => acc
    | (a, v) :: rest =>
        if a.startsWith "_" then captureAttrs cfg rest depth (r + 1) acc
        else if v.isCallable then captureAttrs cfg rest depth r acc
        else captureAttrs cfg rest depth r
          (dictInsert acc a (captureValue cfg a v (depth + 1)))

end

/-- `ExceptionCaptureBuilder._capture_local_variables`: capture each frame
local whose name does not begin with `_` (Python frame locals are
string-keyed and unique, so the built dict is this association list). -/
def captureLocals (cfg : AgentConfig) (locs : List (String × PyValue)) :
    List (String × CapturedVariable) :=
  locs.foldl
    (fun acc p =>
      if p.1.startsWith "_" then acc
      else dictInsert acc p.1 (captureValue cfg p.1 p.2 0)) []

/-! ## The breakpoint-path capture engine
(`TraceManager._capture_value`, `trace_manager.py` lines 223-324).

A near-duplicate of the exception-path engine, but with no `set` branch and
no attribute recursion: everything that is not `None`, primitive, `str`,
`bytes`, `list`/`tuple` or `dict` is rendered as the leaf `<TypeName>`
("Objects - just show type"). -/

mutual

/-- `TraceManager._capture_value`. -/
def traceCaptureValue (cfg : AgentConfig) (name : String) (v : PyValue) (depth : Nat) :
    CapturedVariable :=
  if cfg.max_capture_depth < depth then
    .mk name v.typeName "<max depth exceeded>" false true [] [] Option.none
  else
    match v with
    | .none => .mk name "NoneType" "None" true false [] [] Option.none
    | .bool b => .mk name "bool" (pyPrimStr (.bool b)) false false [] [] Option.none
    | .int n => .mk name "int" (toString n) false false [] [] Option.none
    | .float r => .mk name "float" r false false [] [] Option.none
    | .str s =>
        let truncated := decide (cfg.max_string_length < s.length)
        .mk name "str" (if truncated then pyTake s cfg.max_string_length else s)
          false truncated [] [] Option.none
    | .bytes bs =>
        let truncated := decide (cfg.max_string_length < bs.length)
        .mk name "bytes"
          (hexOfBytes (if truncated then bs.take cfg.max_string_length else bs))
          false truncated [] [] Option.none
    | .list elems =>
        .mk name "list" ("list[" ++ toString elems.length ++ "]") false
          (decide (cfg.max_collection_size < elems.length)) []
          (traceCaptureSeq cfg elems depth 0 cfg.max_collection_size)
          (Option.some elems.length)
    | .tuple elems =>
        .mk name "tuple" ("tuple[" ++ toString elems.length ++ "]") false
          (decide (cfg.max_collection_size < elems.length)) []
          (traceCaptureSeq cfg elems depth 0 cfg.max_collection_size)
          (Option.some elems.length)
    | .dict entries =>
        .mk name "dict" ("dict[" ++ toString entries.length ++ "]") false
          (decide (cfg.max_collection_size < entries.length))
          (traceCaptureDict cfg entries depth cfg.max_collection_size []) [] Option.none
    | .set _ => .mk name "set" "<set>" false false [] [] Option.none
    | .obj tn _ => .mk name tn ("<" ++ tn ++ ">") false false [] [] Option.none
    | .callable tn => .mk name tn ("<" ++ tn ++ ">") false false [] [] Option.none

/-- The sequence loop of the trace-path engine. -/
def traceCaptureSeq (cfg : AgentConfig) (elems : List PyValue)
    (depth idx remaining : Nat) : List CapturedVariable :=
  match remaining with
  | 0 => []
  | r + 1 =>
    match elems with
    | [] => []
    | e :: rest =>
        traceCaptureValue cfg ("[" ++ toString idx ++ "]") e (depth + 1) ::
        traceCaptureSeq cfg rest depth (idx + 1) r

/-- The mapping loop of the trace-path engine. -/
def traceCaptureDict (cfg : AgentConfig) (entries : List (String × PyValue))
    (depth remaining : Nat) (acc : List (String × CapturedVariable)) :
    List (String × CapturedVariable) :=
  match remaining with
  | 0 => acc
  | r + 1 =>
    match entries with
    | [] => acc
    | (k, v) :: rest =>
        let ks := pyTake k 100
        traceCaptureDict cfg rest depth r
          (dictInsert acc ks (traceCaptureValue cfg ks v (depth + 1)))

end

/-- `TraceManager._capture_local_variables` (textually identical to the
builder's). -/
def traceCaptureLocals (cfg : AgentConfig) (locs : List (String × PyValue)) :
    List (String × CapturedVariable) :=
  locs.foldl
    (fun acc p =>
      if p.1.startsWith "_" then acc
      else dictInsert acc p.1 (traceCaptureValue cfg p.1 p.2 0)) []

/-! ## The set-free, object-free fragment of the value model -/

mutual

/-- Values containing no set, object, or callable anywhere: the fragment on
which the two engines dispatch identically. -/
def isSimple : PyValue → Bool
  | .none | .bool _ | .int _ | .float _ | .str _ | .bytes _ => true
  | .list es | .tuple es => isSimpleList es
  | .dict es => isSimpleEntries es
  | .set _ | .obj _ _ | .callable _ => false

/-- All elements simple. -/
def isSimpleList : List PyValue → Bool
  | [] => true
  | e :: rest => isSimple e && isSimpleList rest

/-- All entry values simple. -/
def isSimpleEntries : List (String × PyValue) → Bool
  | [] => true
  | (_, v) :: rest => isSimple v && isSimpleEntries rest

end

/-! ## Tree geometry of a `CapturedVariable` -/

mutual

/-- Height of a snapshot node: the number of edges on the longest path from
the node down to a leaf. -/
def heightCV : CapturedVariable → Nat
  | .mk _ _ _ _ _ ch el _ => max (heightPairs ch) (heightElems el)

/-- Height contribution of a `children` mapping. -/
def heightPairs : List (String × CapturedVariable) → Nat
  | [] => 0
  | (_, c) :: rest => max (heightCV c + 1) (heightPairs rest)

/-- Height contribution of an `array_elements` sequence. -/
def heightElems : List CapturedVariable → Nat
  | [] => 0
  | c :: rest => max (heightCV c + 1) (heightElems rest)

end

mutual

/-- The nodes at distance exactly `k` below a node. -/
def nodesAt : Nat → CapturedVariable → List CapturedVariable
  | 0, n => [n]
  | k + 1, .mk _ _ _ _ _ ch el _ => nodesAtPairs k ch ++ nodesAtElems k el

/-- `nodesAt` over a `children` mapping. -/
def nodesAtPairs : Nat → List (String × CapturedVariable) → List CapturedVariable
  | _, [] => []
  | k, (_, c) :: rest => nodesAt k c ++ nodesAtPairs k rest

/-- `nodesAt` over an `array_elements` sequence. -/
def nodesAtElems : Nat → List CapturedVariable → List CapturedVariable
  | _, [] => []
  | k, c :: rest => nodesAt k c ++ nodesAtElems k rest

end

/-- The `<max depth exceeded>` boundary leaf: truncated, childless. -/
def isSentinelLeaf (n : CapturedVariable) : Bool :=
  (n.value == "<max depth exceeded>") && n.is_truncated &&
  n.children.isEmpty && n.array_elements.isEmpty

/-- Membership in `dictInsert` comes from the new pair or the old mapping. -/
theorem mem_dictInsert (l : List (String × CapturedVariable)) (k : String)
    (v : CapturedVariable) : ∀ p ∈ dictInsert l k v, p = (k, v) ∨ p ∈ l := by
  induction l with
  | nil => intro p hp; simp [dictInsert] at hp; exact Or.inl hp
  | cons q rest ih =>
    intro p hp
    obtain ⟨k', v'⟩ := q
    rw [dictInsert] at hp
    by_cases hk : k' = k
    · rw [if_pos hk] at hp
      rcases List.mem_cons.1 hp with h | h
      · exact Or.inl h
      · exact Or.inr (List.mem_cons_of_mem _ h)
    · rw [if_neg hk] at hp
      rcases List.mem_cons.1 hp with h | h
      · exact Or.inr (h ▸ List.mem_cons_self _ _)
      · rcases ih p h with h2 | h2
        · exact Or.inl h2
        · exact Or.inr (List.mem_cons_of_mem _ h2)

/-- A mapping whose values are uniformly low is itself low. -/
theorem heightPairs_le (l : List (String × CapturedVariable)) (bound : Nat)
    (h : ∀ p ∈ l, heightCV p.2 ≤ bound) : heightPairs l ≤ bound + 1 := by
  induction l with
  | nil => simp [heightPairs]
  | cons q rest ih =>
    obtain ⟨k, c⟩ := q
    simp only [heightPairs, max_le_iff]
    refine ⟨?_, ih fun p hp => h p (List.mem_cons_of_mem _ hp)⟩
    have hkc : heightCV c ≤ bound := h (k, c) (List.mem_cons_self _ _)
    omega

/-- A sequence whose elements are uniformly low is itself low. -/
theorem heightElems_le (l : List CapturedVariable) (bound : Nat)
    (h : ∀ c ∈ l, heightCV c ≤ bound) : heightElems l ≤ bound + 1 := by
  induction l with
  | nil => simp [heightElems]
  | cons c rest ih =>
    simp only [heightElems, max_le_iff]
    refine ⟨?_, ih fun c' hc => h c' (List.mem_cons_of_mem _ hc)⟩
    have := h c (List.mem_cons_self _ _)
    omega

/-- Decompose membership below a `children` mapping. -/
theorem mem_nodesAtPairs (k : Nat) (l : List (String × CapturedVariable)) :
    ∀ n ∈ nodesAtPairs k l, ∃ p ∈ l, n ∈ nodesAt k p.2 := by
  induction l with
  | nil => intro n hn; simp [nodesAtPairs] at hn
  | cons q rest ih =>
    intro n hn
    obtain ⟨k', c⟩ := q
    simp only [nodesAtPairs, List.mem_append] at hn
    rcases hn with h | h
    · exact ⟨(k', c), List.mem_cons_self _ _, h⟩
    · obtain ⟨p, hp, hnp⟩ := ih n h
      exact ⟨p, List.mem_cons_of_mem _ hp, hnp⟩

/-- Decompose membership below an `array_elements` sequence. -/
theorem mem_nodesAtElems (k : Nat) (l : List CapturedVariable) :
    ∀ n ∈ nodesAtElems k l, ∃ c ∈ l, n ∈ nodesAt k c := by
  induction l with
  | nil => intro n hn; simp [nodesAtElems] at hn
  | cons c rest ih =>
    intro n hn
    simp only [nodesAtElems, List.mem_append] at hn
    rcases hn with h | h
    · exact ⟨c, List.mem_cons_self _ _, h⟩
    · obtain ⟨c', hc, hnc⟩ := ih n h
      exact ⟨c', List.mem_cons_of_mem _ hc, hnc⟩

/-! ### Height bound (claim C3, part 1) -/

mutual

/-- A capture started at `depth` reaches at most
`max_capture_depth + 1 - depth` levels further down. -/
theorem captureValue_height (cfg : AgentConfig) (name : String) (v : PyValue)
    (depth : Nat) (hd : depth ≤ cfg.max_capture_depth + 1) :
    heightCV (captureValue cfg name v depth) ≤ cfg.max_capture_depth + 1 - depth := by
  rw [captureValue.eq_def]
  by_cases hover : cfg.max_capture_depth < depth
  · rw [if_pos hover]
    simp [heightCV, heightPairs, heightElems]
  · rw [if_neg hover]
    match v with
    | .none | .bool _ | .int _ | .float _ | .str _ | .bytes _ | .callable _ =>
      simp [heightCV, heightPairs, heightElems]
    | .list elems | .tuple elems | .set elems =>
      have h := captureSeq_height cfg elems depth 0 cfg.max_collection_size (by omega)
      have h2 := heightElems_le _ _ h
      simp only [heightCV, heightPairs]
      omega
    | .dict entries =>
      have h := captureDict_height cfg entries depth cfg.max_collection_size []
        (by omega) (by intro p hp; simp at hp)
      have h2 := heightPairs_le _ _ h
      simp only [heightCV, heightElems]
      omega
    | .obj tn attrs =>
      have h := captureAttrs_height cfg attrs depth cfg.max_collection_size []
        (by omega) (by intro p hp; simp at hp)
      have h2 := heightPairs_le _ _ h
      simp only [heightCV, heightElems]
      omega

/-- Every sequence child is one level lower. -/
theorem captureSeq_height (cfg : AgentConfig) (elems : List PyValue)
    (depth idx r : Nat) (hd : depth + 1 ≤ cfg.max_capture_depth + 1) :
    ∀ c ∈ captureSeq cfg elems depth idx r,
      heightCV c ≤ cfg.max_capture_depth - depth := by
  match r, elems with
  | 0, _ => intro c hc; simp [captureSeq] at hc
  | r + 1, [] => intro c hc; simp [captureSeq] at hc
  | r + 1, e :: rest =>
    intro c hc
    simp only [captureSeq] at hc
    rcases List.mem_cons.1 hc with h | h
    · subst h
      have := captureValue_height cfg ("[" ++ toString idx ++ "]") e (depth + 1) hd
      omega
    · exact captureSeq_height cfg rest depth (idx + 1) r hd c h

/-- Every mapping child is one level lower. -/
theorem captureDict_height (cfg : AgentConfig) (entries : List (String × PyValue))
    (depth r : Nat) (acc : List (String × CapturedVariable))
    (hd : depth + 1 ≤ cfg.max_capture_depth + 1)
    (hacc : ∀ p ∈ acc, heightCV p.2 ≤ cfg.max_capture_depth - depth) :
    ∀ p ∈ captureDict cfg entries depth r acc,
      heightCV p.2 ≤ cfg.max_capture_depth - depth := by
  match r, entries with
  | 0, _ => intro p hp; simp only [captureDict] at hp; exact hacc p hp
  | r + 1, [] => intro p hp; simp only [captureDict] at hp; exact hacc p hp
  | r + 1, (k, v) :: rest =>
    intro p hp
    simp only [captureDict] at hp
    refine captureDict_height cfg rest depth r _ hd ?_ p hp
    intro q hq
    rcases mem_dictInsert _ _ _ q hq with h | h
    · subst h
      have hv := captureValue_height cfg (pyTake k 100) v (depth + 1) hd
      show heightCV (captureValue cfg (pyTake k 100) v (depth + 1)) ≤ _
      omega
    · exact hacc q h

/-- Every object child is one level lower. -/
theorem captureAttrs_height (cfg : AgentConfig) (attrs : List (String × PyValue))
    (depth r : Nat) (acc : List (String × CapturedVariable))
    (hd : depth + 1 ≤ cfg.max_capture_depth + 1)
    (hacc : ∀ p ∈ acc, heightCV p.2 ≤ cfg.max_capture_depth - depth) :
    ∀ p ∈ captureAttrs cfg attrs depth r acc,
      heightCV p.2 ≤ cfg.max_capture_depth - depth := by
  match r, attrs with
  | 0, _ => intro p hp; simp only [captureAttrs] at hp; exact hacc p hp
  | r + 1, [] => intro p hp; simp only [captureAttrs] at hp; exact hacc p hp
  | r + 1, (a, v) :: rest =>
    intro p hp
    simp only [captureAttrs] at hp
    by_cases hu : a.startsWith "_"
    · rw [if_pos hu] at hp
      exact captureAttrs_height cfg rest depth (r + 1) acc hd hacc p hp
    · rw [if_neg hu] at hp
      by_cases hcall : v.isCallable
      · rw [if_pos hcall] at hp
        exact captureAttrs_height cfg rest depth r acc hd hacc p hp
      · rw [if_neg hcall] at hp
        refine captureAttrs_height cfg rest depth r _ hd ?_ p hp
        intro q hq
        rcases mem_dictInsert _ _ _ q hq with h | h
        · subst h
          have hv := captureValue_height cfg a v (depth + 1) hd
          show heightCV (captureValue cfg a v (depth + 1)) ≤ _
          omega
        · exact hacc q h

end

/-! ### Boundary nodes are the sentinel leaf (claim C3, part 2) -/

/-- The sentinel leaf produced by the depth guard satisfies the boundary
predicate. -/
theorem isSentinelLeaf_mk (name tn : String) :
    isSentinelLeaf (.mk name tn "<max depth exceeded>" false true [] [] Option.none)
      = true := by
  simp [isSentinelLeaf, CapturedVariable.value, CapturedVariable.is_truncated,
    CapturedVariable.children, CapturedVariable.array_elements]

mutual

/-- Any node `k` levels below a capture started at `depth`, with
`depth + k` past the depth bound, is the sentinel leaf. -/
theorem captureValue_boundary (cfg : AgentConfig) (name : String) (v : PyValue)
    (depth k : Nat) (hk : cfg.max_capture_depth + 1 ≤ depth + k) :
    ∀ n ∈ nodesAt k (captureValue cfg name v depth), isSentinelLeaf n = true := by
  rw [captureValue.eq_def]
  by_cases hover : cfg.max_capture_depth < depth
  · rw [if_pos hover]
    match k with
    | 0 =>
      intro n hn
      simp only [nodesAt, List.mem_singleton] at hn
      subst hn
      exact isSentinelLeaf_mk name v.typeName
    | k + 1 =>
      intro n hn
      simp [nodesAt, nodesAtPairs, nodesAtElems] at hn
  · rw [if_neg hover]
    obtain ⟨k', rfl⟩ : ∃ k', k = k' + 1 := ⟨k - 1, by omega⟩
    match v with
    | .none | .bool _ | .int _ | .float _ | .str _ | .bytes _ | .callable _ =>
      intro n hn
      simp [nodesAt, nodesAtPairs, nodesAtElems] at hn
    | .list elems | .tuple elems | .set elems =>
      intro n hn
      simp only [nodesAt, nodesAtPairs, List.nil_append] at hn
      obtain ⟨c, hc, hnc⟩ := mem_nodesAtElems k' _ n hn
      exact captureSeq_boundary cfg elems depth 0 cfg.max_collection_size k'
        (by omega) c hc n hnc
    | .dict entries =>
      intro n hn
      simp only [nodesAt, nodesAtElems, List.append_nil] at hn
      obtain ⟨p, hp, hnp⟩ := mem_nodesAtPairs k' _ n hn
      exact captureDict_boundary cfg entries depth cfg.max_collection_size [] k'
        (by omega) (by intro q hq; simp at hq) p hp n hnp
    | .obj tn attrs =>
      intro n hn
      simp only [nodesAt, nodesAtElems, List.append_nil] at hn
      obtain ⟨p, hp, hnp⟩ := mem_nodesAtPairs k' _ n hn
      exact captureAttrs_boundary cfg attrs depth cfg.max_collection_size [] k'
        (by omega) (by intro q hq; simp at hq) p hp n hnp

/-- Boundary property through the sequence loop. -/
theorem captureSeq_boundary (cfg : AgentConfig) (elems : List PyValue)
    (depth idx r k : Nat) (hk : cfg.max_capture_depth + 1 ≤ depth + 1 + k) :
    ∀ c ∈ captureSeq cfg elems depth idx r, ∀ n ∈ nodesAt k c,
      isSentinelLeaf n = true := by
  match r, elems with
  | 0, _ => intro c hc; simp [captureSeq] at hc
  | r + 1, [] => intro c hc; simp [captureSeq] at hc
  | r + 1, e :: rest =>
    intro c hc
    simp only [captureSeq] at hc
    rcases List.mem_cons.1 hc with h | h
    · subst h
      exact captureValue_boundary cfg _ e (depth + 1) k (by omega)
    · exact captureSeq_boundary cfg rest depth (idx + 1) r k hk c h

/-- Boundary property through the mapping loop. -/
theorem captureDict_boundary (cfg : AgentConfig) (entries : List (String × PyValue))
    (depth r : Nat) (acc : List (String × CapturedVariable)) (k : Nat)
    (hk : cfg.max_capture_depth + 1 ≤ depth + 1 + k)
    (hacc : ∀ p ∈ acc, ∀ n ∈ nodesAt k p.2, isSentinelLeaf n = true) :
    ∀ p ∈ captureDict cfg entries depth r acc, ∀ n ∈ nodesAt k p.2,
      isSentinelLeaf n = true := by
  match r, entries with
  | 0, _ => intro p hp; simp only [captureDict] at hp; exact hacc p hp
  | r + 1, [] => intro p hp; simp only [captureDict] at hp; exact hacc p hp
  | r + 1, (kk, v) :: rest =>
    intro p hp
    simp only [captureDict] at hp
    refine captureDict_boundary cfg rest depth r _ k hk ?_ p hp
    intro q hq
    rcases mem_dictInsert _ _ _ q hq with h | h
    · subst h
      exact captureValue_boundary cfg _ v (depth + 1) k (by omega)
    · exact hacc q h

/-- Boundary property through the object loop. -/
theorem captureAttrs_boundary (cfg : AgentConfig) (attrs : List (String × PyValue))
    (depth r : Nat) (acc : List (String × CapturedVariable)) (k : Nat)
    (hk : cfg.max_capture_depth + 1 ≤ depth + 1 + k)
    (hacc : ∀ p ∈ acc, ∀ n ∈ nodesAt k p.2, isSentinelLeaf n = true) :
    ∀ p ∈ captureAttrs cfg attrs depth r acc, ∀ n ∈ nodesAt k p.2,
      isSentinelLeaf n = true := by
  match r, attrs with
  | 0, _ => intro p hp; simp only [captureAttrs] at hp; exact hacc p hp
  | r + 1, [] => intro p hp; simp only [captureAttrs] at hp; exact hacc p hp
  | r + 1, (a, v) :: rest =>
    intro p hp
    simp only [captureAttrs] at hp
    by_cases hu : a.startsWith "_"
    · rw [if_pos hu] at hp
      exact captureAttrs_boundary cfg rest depth (r + 1) acc k hk hacc p hp
    · rw [if_neg hu] at hp
      by_cases hcall : v.isCallable
      · rw [if_pos hcall] at hp
        exact captureAttrs_boundary cfg rest depth r acc k hk hacc p hp
      · rw [if_neg hcall] at hp
        refine captureAttrs_boundary cfg rest depth r _ k hk ?_ p hp
        intro q hq
        rcases mem_dictInsert _ _ _ q hq with h | h
        · subst h
          exact captureValue_boundary cfg _ v (depth + 1) k (by omega)
        · exact hacc q h

end

/-! ### Agreement of the two engines on the set-free, object-free fragment -/

mutual

/-- On values containing no set, object, or callable, the trace-path engine
coincides with the exception-path engine. -/
theorem traceCaptureValue_eq_simple (cfg : AgentConfig) (name : String)
    (v : PyValue) (depth : Nat) (h : isSimple v = true) :
    traceCaptureValue cfg name v depth = captureValue cfg name v depth := by
  rw [traceCaptureValue.eq_def, captureValue.eq_def]
  by_cases hover : cfg.max_capture_depth < depth
  · rw [if_pos hover, if_pos hover]
  · rw [if_neg hover, if_neg hover]
    match v with
    | .none | .bool _ | .int _ | .float _ | .str _ | .bytes _ => rfl
    | .list elems | .tuple elems =>
      have hseq := traceCaptureSeq_eq_simple cfg elems depth 0 cfg.max_collection_size
        (by rw [isSimple] at h; exact h)
      dsimp only
      rw [hseq]
    | .dict entries =>
      have hdict := traceCaptureDict_eq_simple cfg entries depth cfg.max_collection_size []
        (by rw [isSimple] at h; exact h)
      dsimp only
      rw [hdict]
    | .set _ | .obj _ _ | .callable _ => simp [isSimple] at h

/-- Sequence loops agree on the fragment. -/
theorem traceCaptureSeq_eq_simple (cfg : AgentConfig) (elems : List PyValue)
    (depth idx r : Nat) (h : isSimpleList elems = true) :
    traceCaptureSeq cfg elems depth idx r = captureSeq cfg elems depth idx r := by
  match r, elems with
  | 0, _ => rw [traceCaptureSeq, captureSeq]
  | r + 1, [] => rw [traceCaptureSeq, captureSeq]
  | r + 1, e :: rest =>
    rw [traceCaptureSeq, captureSeq]
    rw [isSimpleList] at h
    have he : isSimple e = true := by
      cases hh : isSimple e
      · rw [hh] at h; simp at h
      · rfl
    have hrest : isSimpleList rest = true := by
      cases hh : isSimpleList rest
      · rw [hh] at h; simp at h
      · rfl
    rw [traceCaptureValue_eq_simple cfg _ e (depth + 1) he,
      traceCaptureSeq_eq_simple cfg rest depth (idx + 1) r hrest]

/-- Mapping loops agree on the fragment. -/
theorem traceCaptureDict_eq_simple (cfg : AgentConfig)
    (entries : List (String × PyValue)) (depth r : Nat)
    (acc : List (String × CapturedVariable)) (h : isSimpleEntries entries = true) :
    traceCaptureDict cfg entries depth r acc = captureDict cfg entries depth r acc := by
  match r, entries with
  | 0, _ => rw [traceCaptureDict, captureDict]
  | r + 1, [] => rw [traceCaptureDict, captureDict]
  | r + 1, (k, v) :: rest =>
    rw [traceCaptureDict, captureDict]
    rw [isSimpleEntries] at h
    have hv : isSimple v = true := by
      cases hh : isSimple v
      · rw [hh] at h; simp at h
      · rfl
    have hrest : isSimpleEntries rest = true := by
      cases hh : isSimpleEntries rest
      · rw [hh] at h; simp at h
      · rfl
    rw [traceCaptureValue_eq_simple cfg _ v (depth + 1) hv,
      traceCaptureDict_eq_simple cfg rest depth r _ hrest]

end

/-! ## Claim C3 -/

/-- **C3.** For every input value and configured `max_capture_depth = D`,
the `CapturedValue` tree produced by the capture engine has no path from
the root longer than `D + 1` edges, and every node at the depth boundary
`D + 1` is a leaf with value `"<max depth exceeded>"` and
`is_truncated = true`. -/
theorem C3_bounded_capture_depth (cfg : AgentConfig) (name : String) (v : PyValue) :
    heightCV (captureValue cfg name v 0) ≤ cfg.max_capture_depth + 1 ∧
    ((nodesAt (cfg.max_capture_depth + 1) (captureValue cfg name v 0)).all
      isSentinelLeaf) = true := by
  constructor
  · have h := captureValue_height cfg name v 0 (by omega)
    omega
  · rw [List.all_eq_true]
    intro n hn
    exact captureValue_boundary cfg name v 0 (cfg.max_capture_depth + 1) (by omega) n hn

/-! ## Claim C2 -/

/-- **C2 (counterexample).** With `max_string_length = 1`, capturing the
two-byte string `b"\x00\x00"` yields a `bytes` node whose `value` is the
hex text `"00"` of length `2 > 1`: the value of a byte-string node is NOT
bounded by `max_string_length` hex characters. -/
theorem C2_counterexample :
    (captureValue ⟨10, 1, 100⟩ "b" (.bytes [0, 0]) 0).type = "bytes" ∧
    (captureValue ⟨10, 1, 100⟩ "b" (.bytes [0, 0]) 0).is_truncated = true ∧
    (captureValue ⟨10, 1, 100⟩ "b" (.bytes [0, 0]) 0).value = "00" ∧
    ¬((captureValue ⟨10, 1, 100⟩ "b" (.bytes [0, 0]) 0).value.length ≤ 1) := by
  refine ⟨?_, ?_, ?_, ?_⟩ <;>
    simp [captureValue.eq_def, hexOfBytes, hexCharsOfBytes, byteHexChars, hexChar,
      CapturedVariable.type, CapturedVariable.is_truncated, CapturedVariable.value,
      String.length]

/-- **C2 (amended).** For textual values the captured `value` has at most
`max_string_length` characters and `is_truncated` holds iff the original
was longer.  For byte values the captured `value` is the hex encoding of
the first `min(len, max_string_length)` bytes — `2·min(len,
max_string_length)` hex characters, not `max_string_length` — and
`is_truncated` holds iff the byte length exceeded `max_string_length`.
Both engines agree on these branches. -/
theorem C2_text_bound_amended (cfg : AgentConfig) (name : String) (s : String)
    (bs : List Nat) (depth : Nat) (hd : depth ≤ cfg.max_capture_depth) :
    (captureValue cfg name (.str s) depth).value.length ≤ cfg.max_string_length ∧
    ((captureValue cfg name (.str s) depth).is_truncated = true ↔
      cfg.max_string_length < s.length) ∧
    (captureValue cfg name (.bytes bs) depth).value.length =
      2 * min bs.length cfg.max_string_length ∧
    ((captureValue cfg name (.bytes bs) depth).is_truncated = true ↔
      cfg.max_string_length < bs.length) ∧
    traceCaptureValue cfg name (.str s) depth = captureValue cfg name (.str s) depth ∧
    traceCaptureValue cfg name (.bytes bs) depth = captureValue cfg name (.bytes bs) depth
    := by
  have hover : ¬ cfg.max_capture_depth < depth := by omega
  refine ⟨?_, ?_, ?_, ?_, ?_, ?_⟩
  · rw [captureValue.eq_def, if_neg hover]
    dsimp only
    by_cases ht : cfg.max_string_length < s.length
    · rw [if_pos (by simpa using ht)]
      simp only [CapturedVariable.value, pyTake_length]
      omega
    · rw [if_neg (by simpa using ht)]
      simp only [CapturedVariable.value]
      omega
  · rw [captureValue.eq_def, if_neg hover]
    dsimp only
    by_cases ht : cfg.max_string_length < s.length <;>
      simp [CapturedVariable.is_truncated, ht]
  · rw [captureValue.eq_def, if_neg hover]
    dsimp only
    by_cases ht : cfg.max_string_length < bs.length
    · rw [if_pos (by simpa using ht)]
      simp only [CapturedVariable.value, hexOfBytes_length, List.length_take]
      omega
    · rw [if_neg (by simpa using ht)]
      simp only [CapturedVariable.value, hexOfBytes_length]
      omega
  · rw [captureValue.eq_def, if_neg hover]
    dsimp only
    by_cases ht : cfg.max_string_length < bs.length <;>
      simp [CapturedVariable.is_truncated, ht]
  · exact traceCaptureValue_eq_simple cfg name (.str s) depth (by rw [isSimple])
  · exact traceCaptureValue_eq_simple cfg name (.bytes bs) depth (by rw [isSimple])

/-- Witness for C2 (amended): concrete evaluation at
`max_string_length = 5`, text `"hello world"`, bytes `[1,2,3]`, depth 0. -/
theorem C2_text_bound_amended_witness :
    (captureValue ⟨10, 5, 100⟩ "x" (.str "hello world") 0).value.length ≤ 5 ∧
    ((captureValue ⟨10, 5, 100⟩ "x" (.str "hello world") 0).is_truncated = true ↔
      5 < "hello world".length) ∧
    (captureValue ⟨10, 5, 100⟩ "x" (.bytes [1, 2, 3]) 0).value.length =
      2 * min ([1, 2, 3] : List Nat).length 5 ∧
    ((captureValue ⟨10, 5, 100⟩ "x" (.bytes [1, 2, 3]) 0).is_truncated = true ↔
      5 < ([1, 2, 3] : List Nat).length) ∧
    traceCaptureValue ⟨10, 5, 100⟩ "x" (.str "hello world") 0 =
      captureValue ⟨10, 5, 100⟩ "x" (.str "hello world") 0 ∧
    traceCaptureValue ⟨10, 5, 100⟩ "x" (.bytes [1, 2, 3]) 0 =
      captureValue ⟨10, 5, 100⟩ "x" (.bytes [1, 2, 3]) 0 :=
  C2_text_bound_amended ⟨10, 5, 100⟩ "x" "hello world" [1, 2, 3] 0 (by decide)

/-! ## Claim C9 -/

/-- **C9 (counterexample).** On the set `{1}` the two capture engines
disagree: the exception-path engine produces a composite with
`array_elements` and `array_length = 1`, the trace-path engine a bare
`<set>` leaf with no `array_length`.  They are not extensionally equal. -/
theorem C9_counterexample :
    traceCaptureValue defaultConfig "s" (.set [.int 1]) 0 ≠
      captureValue defaultConfig "s" (.set [.int 1]) 0 := by
  intro h
  have h2 := congrArg CapturedVariable.array_length h
  rw [traceCaptureValue.eq_def, captureValue.eq_def] at h2
  simp [defaultConfig, CapturedVariable.array_length] at h2

/-- **C9 (amended).** The two capture functions agree extensionally on
every value free of sets, generic objects, and callables (same dispatch,
bounds, and truncation flags for `None`, primitives, text, bytes,
sequences, and mappings); on sets and generic objects they differ (the
trace-path engine renders a childless `<TypeName>` leaf). -/
theorem C9_engines_agree_on_simple_fragment (cfg : AgentConfig) (name : String)
    (v : PyValue) (depth : Nat) (h : isSimple v = true) :
    traceCaptureValue cfg name v depth = captureValue cfg name v depth :=
  traceCaptureValue_eq_simple cfg name v depth h

/-- Witness for C9 (amended): a concrete nested simple value. -/
theorem C9_engines_agree_witness :
    traceCaptureValue defaultConfig "x"
        (.list [.int 1, .str "a", .dict [("k", .bool true)]]) 0 =
      captureValue defaultConfig "x"
        (.list [.int 1, .str "a", .dict [("k", .bool true)]]) 0 :=
  C9_engines_agree_on_simple_fragment defaultConfig "x"
    (.list [.int 1, .str "a", .dict [("k", .bool true)]]) 0
    (by simp [isSimple, isSimpleList, isSimpleEntries])

/-! ## Claim C1 -/

/-- The fingerprint-relevant projection of a stack trace: the
`(method_name, line_number or 0)` pairs of the first up-to-5 non-native
frames. -/
def fingerprintInputs (st : List StackFrameInfo) : List (String × Int) :=
  ((st.filter fun f => !f.is_native).take 5).map
    fun f => (f.method_name, lineOrZero f.line_number)

/-- **C1.** Every fingerprint equals the SHA-256 of
`exception_type ':' f1 ':' f2 ...` over the first up-to-5 non-native
frames (missing line numbers as `0`), hex-truncated to exactly 16
lower-case hex characters, and is a deterministic function of the
exception type name and those frame projections alone. -/
theorem C1_fingerprint_rule (et : String) (st st' : List StackFrameInfo)
    (h : fingerprintInputs st = fingerprintInputs st') :
    calculateFingerprint et st = specFingerprint et st ∧
    (calculateFingerprint et st).length = 16 ∧
    (∀ c ∈ (calculateFingerprint et st).data, isLowerHexChar c = true) ∧
    calculateFingerprint et st = calculateFingerprint et st' := by
  refine ⟨calculateFingerprint_eq_spec et st, ?_, ?_, ?_⟩
  · rw [calculateFingerprint, pyTake_length, sha256Hex_length]
    omega
  · intro c hc
    rw [calculateFingerprint] at hc
    exact hexOfBytes_lower _ c (pyTake_subset _ 16 c hc)
  · have hparts : fingerprintLoop st 0 = fingerprintLoop st' 0 := by
      rw [fingerprintLoop_eq, fingerprintLoop_eq]
      have hm : ∀ l : List StackFrameInfo,
          ((l.filter fun f => !f.is_native).take (5 - 0)).map framePart =
          (fingerprintInputs l).map fun p => p.1 ++ ":" ++ toString p.2 := by
        intro l
        rw [fingerprintInputs, List.map_map]
        rfl
      rw [hm, hm, h]
    rw [calculateFingerprint, calculateFingerprint, hparts]

/-- Witness for C1: two concrete one-frame stacks differing only in
fingerprint-irrelevant fields (file path, source availability). -/
theorem C1_fingerprint_rule_witness :
    calculateFingerprint "KeyError"
        [⟨"handler", Option.none, Option.none, Option.some 3, Option.none, false, true⟩] =
      specFingerprint "KeyError"
        [⟨"handler", Option.none, Option.none, Option.some 3, Option.none, false, true⟩] ∧
    (calculateFingerprint "KeyError"
        [⟨"handler", Option.none, Option.none, Option.some 3, Option.none, false, true⟩]).length = 16 ∧
    (∀ c ∈ (calculateFingerprint "KeyError"
        [⟨"handler", Option.none, Option.none, Option.some 3, Option.none, false, true⟩]).data,
      isLowerHexChar c = true) ∧
    calculateFingerprint "KeyError"
        [⟨"handler", Option.none, Option.none, Option.some 3, Option.none, false, true⟩] =
      calculateFingerprint "KeyError"
        [⟨"handler", Option.some "x.py", Option.some "/app/x.py", Option.some 3,
          Option.none, false, false⟩] :=
  C1_fingerprint_rule "KeyError" _ _ (by decide)

/-! ## The exception capture builder and the manual entry point
(`capture.py` lines 109-198, `handler.py` lines 64-81) -/

/-- The part of a Python frame object the builder reads: `f_code.co_name`,
`f_code.co_filename` (the empty string standing for a falsy path), and
`f_locals`. -/
structure FrameModel where
  code_name : String
  code_filename : String
  locs : List (String × PyValue)

/-- One traceback step: its frame and `tb_lineno`. -/
structure TracebackStep where
  frame : FrameModel
  lineno : Int

/-- `os.path.basename` (Python standard library, external to the repo):
the text after the last path separator. -/
def pyBasename (s : String) : String :=
  String.mk (s.data.reverse.takeWhile (fun c => c ≠ '/')).reverse

/-- Python's `in` on character lists. -/
def containsL (s pat : List Char) : Bool :=
  if pat.isPrefixOf s then true
  else
    match s with
    | [] => false
    | _ :: rest => containsL rest pat

/-- Python's substring test `pat in s`. -/
def strContains (s pat : String) : Bool := containsL s.data pat.data

/-- Key lookup in a string-keyed Python dict (`d.get(k)`). -/
def lookupStr (l : List (String × PyValue)) (k : String) : Option PyValue :=
  (l.find? (fun p => p.1 == k)).map Prod.snd

/-- `ExceptionCaptureBuilder._get_class_name`: a local `self` that is not
`None` yields its runtime type name.  The `cls` probe requires
`isinstance(cls, type)`, and the value model contains no class objects, so
it never yields a name. -/
def getClassName (f : FrameModel) : Option String :=
  match lookupStr f.locs "self" with
  | Option.none => Option.none
  | Option.some PyValue.none => Option.none
  | Option.some v => Option.some v.typeName

/-- The `StackFrameInfo` built from one traceback step
(`_extract_stack_trace` loop body). -/
def frameInfoOfStep (step : TracebackStep) : StackFrameInfo :=
  let fp := step.frame.code_filename
  let is_native := if fp = "" then true else fp.startsWith "<"
  { method_name := step.frame.code_name,
    file_name := if fp = "" then Option.none else Option.some (pyBasename fp),
    file_path := Option.some fp,
    line_number := Option.some step.lineno,
    class_name := getClassName step.frame,
    is_native := is_native,
    source_available :=
      !is_native && !(fp = "") &&
      !(strContains fp "site-packages" || strContains fp "dist-packages") }

/-- `ExceptionCaptureBuilder._extract_stack_trace`: the walk appends one
entry per traceback step and breaks once 50 entries exist, i.e. it maps
over the first 50 steps. -/
def extractStackTrace (tb : List TracebackStep) : List StackFrameInfo :=
  (tb.take 50).map frameInfoOfStep

/-- A Python exception as the builder reads it: type name, `str()` text,
and the attached `__traceback__` chain (outermost first). -/
structure PyException where
  typeName : String
  message : String
  traceback : List TracebackStep

/-- `ExceptionCapture` dataclass (deterministic fields; `id` and
`captured_at` are passed in, standing for `uuid.uuid4()` and
`datetime.utcnow()`). -/
structure ExceptionCapture where
  id : String
  exception_type : String
  message : String
  fingerprint : String
  stack_trace : List StackFrameInfo
  local_variables : List (String × CapturedVariable)
  context : List (String × PyValue)
  captured_at : String

/-- Python `dict` assignment for a string-keyed `PyValue` mapping. -/
def ctxInsert (l : List (String × PyValue)) (k : String) (v : PyValue) :
    List (String × PyValue) :=
  match l with
  | [] => [(k, v)]
  | (k', v') :: rest => if k' = k then (k, v) :: rest else (k', v') :: ctxInsert rest k v

/-- `{**base, **upd}`. -/
def pyDictUpdate (base upd : List (String × PyValue)) : List (String × PyValue) :=
  upd.foldl (fun acc p => ctxInsert acc p.1 p.2) base

/-- `ExceptionCaptureBuilder.capture`: stack walk, locals of the given
frame (empty when none), fingerprint, merged context
`{**custom_context, **(context or {}), 'user': user}`. -/
def builderCapture (cfg : AgentConfig) (custom user : List (String × PyValue))
    (freshId now : String) (exc : PyException)
    (context : Option (List (String × PyValue))) (frame : Option FrameModel) :
    ExceptionCapture :=
  let stack_trace := extractStackTrace exc.traceback
  { id := freshId,
    exception_type := exc.typeName,
    message := exc.message,
    fingerprint := calculateFingerprint exc.typeName stack_trace,
    stack_trace := stack_trace,
    local_variables :=
      match frame with
      | Option.some f => captureLocals cfg f.locs
      | Option.none => [],
    context := ctxInsert (pyDictUpdate custom (context.getD [])) "user" (.dict user),
    captured_at := now }

/-- `ExceptionHandler.capture`: when sampling rejects (`sample = false`,
the outcome of `config.should_sample()`) nothing is produced; otherwise
the innermost traceback frame is located (the walk keeps the last step's
frame, `None` for an empty chain) and the builder is invoked. -/
def handlerCapture (cfg : AgentConfig) (custom user : List (String × PyValue))
    (sample : Bool) (freshId now : String) (exc : PyException)
    (context : Option (List (String × PyValue))) : Option ExceptionCapture :=
  if !sample then Option.none
  else
    Option.some (builderCapture cfg custom user freshId now exc context
      ((exc.traceback.getLast?).map (fun s => s.frame)))

/-! ## Claim C10 -/

/-- **C10.** For an exception with no attached traceback, the manual
capture entry point produces an `ExceptionCapture` with empty
`stack_trace`, empty `local_variables`, and fingerprint equal to the first
16 hex characters of SHA-256 of the exception type name alone. -/
theorem C10_no_traceback_capture (cfg : AgentConfig)
    (custom user : List (String × PyValue)) (freshId now et msg : String)
    (ctx : Option (List (String × PyValue))) :
    ∃ c, handlerCapture cfg custom user true freshId now ⟨et, msg, []⟩ ctx =
        Option.some c ∧
      c.stack_trace = [] ∧ c.local_variables = [] ∧
      c.fingerprint = pyTake (sha256Hex et) 16 := by
  refine ⟨_, rfl, rfl, rfl, ?_⟩
  show calculateFingerprint et (extractStackTrace []) = pyTake (sha256Hex et) 16
  rw [extractStackTrace]
  show pyTake (sha256Hex (String.intercalate ":" (et :: fingerprintLoop [] 0))) 16 = _
  rw [show fingerprintLoop [] 0 = [] from rfl, intercalate_single]

/-! ## Breakpoint registry and trace hook
(`aivory_monitor/tracer/trace_manager.py`)

Python objects are aliased: the same `Breakpoint` object sits in both
indexes and its `hit_count` is mutated in place.  The embedding makes the
heap explicit: each created object gets a serial number, the two indexes
hold serials, and a serial-keyed store carries the mutable records.
`os.path.normpath` is Python standard library (external to this
repository); only lower-casing and the suffix structure of normalized
paths matter to the claims, so normalization is modelled as lower-casing,
with path arguments ranging over arbitrary strings that play the role of
already-`normpath`-normal paths.  Condition evaluation
(`eval(condition, frame.f_globals, frame.f_locals)`) depends on the live
frame; it is abstracted as an oracle `String → Option Bool` per line
event (`none` = the evaluation raised, treated as a non-hit). -/

/-- `os.path.normpath(file_path).lower()`, with `normpath` modelled as the
identity on already-normal paths (see section comment); `.lower()` maps
each code point to lower case. -/
def normalizePath (p : String) : String := String.mk (p.data.map Char.toLower)

/-- Python `str.endswith`: suffix on code points. -/
def pyEndsWith (s pat : String) : Bool := pat.data.isSuffixOf s.data

/-- The `Breakpoint` object. -/
structure Breakpoint where
  backend_id : String
  file_path : String
  line_number : Int
  condition : Option String
  max_hits : Nat
  hit_count : Nat
  normalized_path : String
deriving DecidableEq, Repr

/-- Lookup in a string-keyed insertion-ordered dict. -/
def assocGet {α : Type} : List (String × α) → String → Option α
  | [], _ => Option.none
  | (k', v) :: rest, k => if k' = k then Option.some v else assocGet rest k

/-- Assignment `d[k] = v` in a string-keyed insertion-ordered dict. -/
def assocSet {α : Type} (l : List (String × α)) (k : String) (v : α) :
    List (String × α) :=
  match l with
  | [] => [(k, v)]
  | (k', v') :: rest => if k' = k then (k, v) :: rest else (k', v') :: assocSet rest k v

/-- `d.pop(k, None)`'s removal effect. -/
def assocRemove {α : Type} (l : List (String × α)) (k : String) :
    List (String × α) :=
  l.filter (fun p => !(p.1 == k))

/-- Heap lookup of a `Breakpoint` object by serial. -/
def recGet : List (Nat × Breakpoint) → Nat → Option Breakpoint
  | [], _ => Option.none
  | (s', bp) :: rest, s => if s' = s then Option.some bp else recGet rest s

/-- In-place mutation of the object with the given serial (append when
absent, which never happens on reachable states). -/
def recSet (l : List (Nat × Breakpoint)) (s : Nat) (bp : Breakpoint) :
    List (Nat × Breakpoint) :=
  match l with
  | [] => [(s, bp)]
  | (s', bp') :: rest => if s' = s then (s, bp) :: rest else (s', bp') :: recSet rest s bp

/-- The mutable state of a `TraceManager`: the object heap plus the two
indexes `_breakpoints` (`by_id`) and `_breakpoints_by_file`. -/
structure TraceState where
  nextSerial : Nat
  recs : List (Nat × Breakpoint)
  byId : List (String × Nat)
  byFile : List (String × List Nat)
deriving Repr

/-- Fresh manager: both indexes empty. -/
def initTraceState : TraceState := ⟨0, [], [], []⟩

/-- `TraceManager.set_breakpoint`: clamp `max_hits` to `[1, 50]`, build a
fresh `Breakpoint` (hit count 0), assign it into `by_id`, and append it to
its file's bucket (creating the bucket when absent). -/
def set_breakpoint (st : TraceState) (bid path : String) (lineNo : Int)
    (cond : Option String) (requestedMaxHits : Int) : TraceState :=
  let mh := (min (max requestedMaxHits 1) 50).toNat
  let np := normalizePath path
  let bp : Breakpoint := ⟨bid, path, lineNo, cond, mh, 0, np⟩
  let s := st.nextSerial
  { nextSerial := s + 1,
    recs := st.recs ++ [(s, bp)],
    byId := assocSet st.byId bid s,
    byFile :=
      match assocGet st.byFile np with
      | Option.none => st.byFile ++ [(np, [s])]
      | Option.some bucket => assocSet st.byFile np (bucket ++ [s]) }

/-- The normalized path of the object a `by_id` entry names (the popped
breakpoint's `normalized_path`). -/
def removedNormPath (st : TraceState) (s : Nat) : String :=
  match recGet st.recs s with
  | Option.some bp => bp.normalized_path
  | Option.none => ""

/-- `TraceManager.remove_breakpoint`: pop from `by_id`; when found, filter
the file bucket by `backend_id`. -/
def remove_breakpoint (st : TraceState) (bid : String) : TraceState :=
  match assocGet st.byId bid with
  | Option.none => st
  | Option.some s =>
    { st with
      byId := assocRemove st.byId bid,
      byFile := assocSet st.byFile (removedNormPath st s)
        (((assocGet st.byFile (removedNormPath st s)).getD []).filter
          (fun s' =>
            match recGet st.recs s' with
            | Option.some bp => !(bp.backend_id == bid)
            | Option.none => true)) }

/-- One `breakpoint_hit` frame as the model records it (`breakpoint_id`,
`file_path`, `line_number`, post-increment `hit_count`; the captured
locals and stack are produced by the capture engines studied separately
and carry no information about budgets or matching).  `serial` is model
bookkeeping identifying the emitting object. -/
structure HitMessage where
  serial : Nat
  breakpoint_id : String
  file_path : String
  line_number : Int
  hit_count : Nat
deriving DecidableEq, Repr

/-- The condition gate: no condition passes; a present condition passes
exactly when its evaluation succeeds with a truthy result. -/
def condPasses (oracle : String → Option Bool) (c? : Option String) : Bool :=
  match c? with
  | Option.none => true
  | Option.some c =>
    match oracle c with
    | Option.some true => true
    | _ => false

/-- `TraceManager._handle_breakpoint_hit`: skip when the budget is
exhausted; evaluate the condition when present (failure or a non-truthy
result suppresses the hit); otherwise increment `hit_count` in place and
emit the message. -/
def handle_breakpoint_hit (oracle : String → Option Bool) (st : TraceState)
    (s : Nat) : TraceState × Option HitMessage :=
  match recGet st.recs s with
  | Option.none => (st, Option.none)
  | Option.some bp =>
    if bp.max_hits ≤ bp.hit_count then (st, Option.none)
    else if condPasses oracle bp.condition then
      ({ st with recs := recSet st.recs s { bp with hit_count := bp.hit_count + 1 } },
       Option.some ⟨s, bp.backend_id, bp.file_path, bp.line_number,
         bp.hit_count + 1⟩)
    else (st, Option.none)

/-- The per-breakpoint loop of `_trace_callback`: each bucket member at
the current line is handed to `_handle_breakpoint_hit`, in order,
threading the mutated state. -/
def processBucket (oracle : String → Option Bool) (st : TraceState)
    (bucket : List Nat) (lineNo : Int) : TraceState × List HitMessage :=
  match bucket with
  | [] => (st, [])
  | s :: rest =>
    match recGet st.recs s with
    | Option.none => processBucket oracle st rest lineNo
    | Option.some bp =>
      if bp.line_number = lineNo then
        ((processBucket oracle (handle_breakpoint_hit oracle st s).1 rest lineNo).1,
         ((handle_breakpoint_hit oracle st s).2).toList ++
           (processBucket oracle (handle_breakpoint_hit oracle st s).1 rest lineNo).2)
      else processBucket oracle st rest lineNo

/-- The suffix lookup of `_trace_callback`: the first bucket, in index
insertion order, whose key is a suffix of the current normalized path or
vice versa. -/
def suffixBucket (byFile : List (String × List Nat)) (np : String) :
    Option (List Nat) :=
  (byFile.find? (fun p => pyEndsWith np p.1 || pyEndsWith p.1 np)).map Prod.snd

/-- The bucket-selection discipline of `_trace_callback`: the
exact-normalized-path bucket when present and nonempty, otherwise the
first suffix match. -/
def selectBucket (byFile : List (String × List Nat)) (np : String) :
    Option (List Nat) :=
  match assocGet byFile np with
  | Option.some b => if b.isEmpty then suffixBucket byFile np else Option.some b
  | Option.none => suffixBucket byFile np

/-- `TraceManager._trace_callback` on a `line` event: return immediately
when the file index is empty or the event has no file path; otherwise
select a bucket — exact normalized-path match first, and only when that
yields nothing (no key, or an empty bucket) the first suffix match — and
process it. -/
def lineEvent (oracle : String → Option Bool) (st : TraceState)
    (path : String) (lineNo : Int) : TraceState × List HitMessage :=
  if st.byFile.isEmpty then (st, [])
  else if path = "" then (st, [])
  else
    match selectBucket st.byFile (normalizePath path) with
    | Option.none => (st, [])
    | Option.some bucket =>
      if bucket.isEmpty then (st, [])
      else processBucket oracle st bucket lineNo

/-- One externally visible operation on the trace manager: a
`set_breakpoint` command, a `remove_breakpoint` command, or a line event
(with that event's condition-evaluation oracle). -/
inductive TraceOp where
  | set (backend_id file_path : String) (lineNo : Int) (condition : Option String)
        (max_hits : Int)
  | remove (backend_id : String)
  | line (oracle : String → Option Bool) (path : String) (lineNo : Int)

/-- Apply one operation, extending the transcript of emitted
`breakpoint_hit` messages. -/
def traceStep : TraceState × List HitMessage → TraceOp → TraceState × List HitMessage
  | (st, ems), .set bid p l c m => (set_breakpoint st bid p l c m, ems)
  | (st, ems), .remove bid => (remove_breakpoint st bid, ems)
  | (st, ems), .line oracle p l =>
    let r := lineEvent oracle st p l
    (r.1, ems ++ r.2)

/-- Run a sequence of operations from the fresh manager. -/
def runOps (ops : List TraceOp) : TraceState × List HitMessage :=
  ops.foldl traceStep (initTraceState, [])

/-- The messages emitted by one breakpoint object. -/
def emitsFor (ems : List HitMessage) (s : Nat) : List HitMessage :=
  ems.filter (fun e => e.serial == s)

/-- The live hit count of the object with a given serial (0 when absent). -/
def hitCountOf (st : TraceState) (s : Nat) : Nat :=
  match recGet st.recs s with
  | Option.some bp => bp.hit_count
  | Option.none => 0

/-- All serials reachable through the file index. -/
def byFileSerials (st : TraceState) : List Nat :=
  st.byFile.foldr (fun p acc => p.2 ++ acc) []

/-! ## Claim C4 -/

/-- **C4 (code bug, evaluation at the failing input).** Installing the
same `backend_id` twice leaves the old `Breakpoint` object in the file
bucket: `by_id` holds only the new serial 1, while the file bucket holds
both 0 and 1 — a stale entry, so the two indexes are inconsistent.  The
`by_id` half of the claim does hold: the lookup yields the new object with
`hit_count` reset to 0. -/
theorem C4_stale_entry_after_reinstall :
    (runOps [TraceOp.set "a" "app.py" 1 Option.none 1,
             TraceOp.set "a" "app.py" 1 Option.none 1]).1.byId = [("a", 1)] ∧
    (runOps [TraceOp.set "a" "app.py" 1 Option.none 1,
             TraceOp.set "a" "app.py" 1 Option.none 1]).1.byFile =
      [("app.py", [0, 1])] ∧
    hitCountOf (runOps [TraceOp.set "a" "app.py" 1 Option.none 1,
             TraceOp.set "a" "app.py" 1 Option.none 1]).1 1 = 0 ∧
    ((byFileSerials (runOps [TraceOp.set "a" "app.py" 1 Option.none 1,
             TraceOp.set "a" "app.py" 1 Option.none 1]).1).all
      (fun s => ((runOps [TraceOp.set "a" "app.py" 1 Option.none 1,
             TraceOp.set "a" "app.py" 1 Option.none 1]).1.byId.map Prod.snd).contains s))
      = false := by
  refine ⟨by decide, by decide, by decide, by decide⟩

/-! ## Claim C5: counterexample -/

/-- **C5 (counterexample).** Install `a` with `max_hits = 1`, cross the
line (one emit), reinstall `a` with `max_hits = 1`, cross again: the stale
and the fresh object together produce 2 `breakpoint_hit` messages for
backend id `a`, though every installed breakpoint had `max_hits = 1` —
"at most max_hits messages are ever emitted for that backend_id" fails. -/
theorem C5_counterexample :
    ((runOps [TraceOp.set "a" "x.py" 1 Option.none 1,
              TraceOp.line (fun _ => Option.none) "x.py" 1,
              TraceOp.set "a" "x.py" 1 Option.none 1,
              TraceOp.line (fun _ => Option.none) "x.py" 1]).1.recs.all
      (fun p => p.2.max_hits == 1)) = true ∧
    ((runOps [TraceOp.set "a" "x.py" 1 Option.none 1,
              TraceOp.line (fun _ => Option.none) "x.py" 1,
              TraceOp.set "a" "x.py" 1 Option.none 1,
              TraceOp.line (fun _ => Option.none) "x.py" 1]).2.filter
      (fun e => e.breakpoint_id == "a")).length = 2 := by
  refine ⟨by decide, by decide⟩

/-! ## Claim C6: counterexample -/

/-- **C6 (counterexample).** With breakpoints at `x.py` (id `a`) and
`b/x.py` (id `b`) installed, a line event in `b/x.py` selects only the
exact-match bucket: `b` fires, while `a` — whose normalized path `x.py`
is a suffix of the event's normalized path `b/x.py`, so the claim's
"iff" says it is considered — emits nothing despite having no condition
and an untouched budget. -/
theorem C6_counterexample :
    pyEndsWith (normalizePath "b/x.py") (normalizePath "x.py") = true ∧
    ((runOps [TraceOp.set "a" "x.py" 1 Option.none 5,
              TraceOp.set "b" "b/x.py" 1 Option.none 5,
              TraceOp.line (fun _ => Option.none) "b/x.py" 1]).2.all
      (fun e => !(e.breakpoint_id == "a"))) = true ∧
    (runOps [TraceOp.set "a" "x.py" 1 Option.none 5,
             TraceOp.set "b" "b/x.py" 1 Option.none 5,
             TraceOp.line (fun _ => Option.none) "b/x.py" 1]).2.length = 1 := by
  refine ⟨by decide, by decide, by decide⟩

/-! ### Dictionary and transcript lemmas -/

/-- Lookup across an appended heap: left association wins. -/
theorem recGet_append (l₁ l₂ : List (Nat × Breakpoint)) (s : Nat) :
    recGet (l₁ ++ l₂) s =
      match recGet l₁ s with
      | Option.some bp => Option.some bp
      | Option.none => recGet l₂ s := by
  induction l₁ with
  | nil => rfl
  | cons q rest ih =>
    obtain ⟨s', bp'⟩ := q
    by_cases hq : s' = s
    · simp [recGet, hq]
    · simp only [List.cons_append, recGet, if_neg hq]
      exact ih

/-- `recSet` updates exactly the looked-up key. -/
theorem recGet_recSet (l : List (Nat × Breakpoint)) (s : Nat) (bp' : Breakpoint)
    (s' : Nat) :
    recGet (recSet l s bp') s' = if s' = s then Option.some bp' else recGet l s' := by
  induction l with
  | nil =>
    simp only [recSet, recGet]
    split_ifs <;> first | rfl | omega
  | cons q rest ih =>
    obtain ⟨s₀, bp₀⟩ := q
    by_cases h0 : s₀ = s
    · subst h0
      simp only [recSet, if_pos rfl, recGet]
      split_ifs <;> first | rfl | omega
    · simp only [recSet, if_neg h0, recGet, ih]
      split_ifs <;> first | rfl | omega

/-- A successful dict lookup names a member. -/
theorem assocGet_mem {α : Type} (l : List (String × α)) (k : String) (v : α)
    (h : assocGet l k = Option.some v) : (k, v) ∈ l := by
  induction l with
  | nil => simp [assocGet] at h
  | cons q rest ih =>
    obtain ⟨k', v'⟩ := q
    by_cases hk : k' = k
    · subst hk
      rw [assocGet, if_pos rfl] at h
      cases h
      exact List.mem_cons_self _ _
    · rw [assocGet, if_neg hk] at h
      exact List.mem_cons_of_mem _ (ih h)

/-- Members of an assignment come from the new pair or the old dict. -/
theorem mem_assocSet {α : Type} (l : List (String × α)) (k : String) (v : α) :
    ∀ p ∈ assocSet l k v, p = (k, v) ∨ p ∈ l := by
  induction l with
  | nil => intro p hp; simp [assocSet] at hp; exact Or.inl hp
  | cons q rest ih =>
    intro p hp
    obtain ⟨k', v'⟩ := q
    rw [assocSet] at hp
    by_cases hk : k' = k
    · rw [if_pos hk] at hp
      rcases List.mem_cons.1 hp with h | h
      · exact Or.inl h
      · exact Or.inr (List.mem_cons_of_mem _ h)
    · rw [if_neg hk] at hp
      rcases List.mem_cons.1 hp with h | h
      · exact Or.inr (h ▸ List.mem_cons_self _ _)
      · rcases ih p h with h2 | h2
        · exact Or.inl h2
        · exact Or.inr (List.mem_cons_of_mem _ h2)

/-- Per-serial filtering distributes over transcript extension. -/
theorem emitsFor_append (ems₁ ems₂ : List HitMessage) (s : Nat) :
    emitsFor (ems₁ ++ ems₂) s = emitsFor ems₁ s ++ emitsFor ems₂ s := by
  simp [emitsFor, List.filter_append]

/-- A singleton transcript filters to itself or nothing. -/
theorem emitsFor_single (m : HitMessage) (s : Nat) :
    emitsFor [m] s = if m.serial = s then [m] else [] := by
  by_cases h : m.serial = s <;> simp [emitsFor, h]

/-- Live hit count of a present object. -/
theorem hitCountOf_some {st : TraceState} {s : Nat} {bp : Breakpoint}
    (h : recGet st.recs s = Option.some bp) : hitCountOf st s = bp.hit_count := by
  rw [hitCountOf, h]

/-- Live hit count of an absent serial. -/
theorem hitCountOf_none {st : TraceState} {s : Nat}
    (h : recGet st.recs s = Option.none) : hitCountOf st s = 0 := by
  rw [hitCountOf, h]

/-! ### The reachable-state invariant -/

/-- For states the trace manager actually reaches: serials at or past the
allocation counter are unused (in the heap and in the transcript),
`max_hits` is clamped to `[1, 50]`, `hit_count` never exceeds `max_hits`,
the transcript holds exactly `hit_count` messages per object, and every
serial a file bucket references names a live object whose normalized path
is the bucket key. -/
structure TMInv (st : TraceState) (ems : List HitMessage) : Prop where
  fresh_recs : ∀ s, st.nextSerial ≤ s → recGet st.recs s = Option.none
  fresh_ems : ∀ s, st.nextSerial ≤ s → emitsFor ems s = []
  clamped : ∀ s bp, recGet st.recs s = Option.some bp →
    1 ≤ bp.max_hits ∧ bp.max_hits ≤ 50
  budget : ∀ s bp, recGet st.recs s = Option.some bp → bp.hit_count ≤ bp.max_hits
  hits_count : ∀ s, (emitsFor ems s).length = hitCountOf st s
  files : ∀ k b, (k, b) ∈ st.byFile → ∀ s ∈ b,
    ∃ bp, recGet st.recs s = Option.some bp ∧ bp.normalized_path = k

/-- The fresh manager satisfies the invariant. -/
theorem TMInv_init : TMInv initTraceState [] := by
  refine ⟨?_, ?_, ?_, ?_, ?_, ?_⟩
  · intro s _; rfl
  · intro s _; rfl
  · intro s bp h; simp [initTraceState, recGet] at h
  · intro s bp h; simp [initTraceState, recGet] at h
  · intro s; rfl
  · intro k b h; simp [initTraceState] at h

/-- `_handle_breakpoint_hit` preserves the invariant (transcript extended
by the emitted message, if any). -/
theorem TMInv_handle_hit (oracle : String → Option Bool) (st : TraceState)
    (s : Nat) (ems : List HitMessage) (hinv : TMInv st ems) :
    TMInv (handle_breakpoint_hit oracle st s).1
      (ems ++ ((handle_breakpoint_hit oracle st s).2).toList) := by
  cases hrec : recGet st.recs s with
  | none => simp only [handle_breakpoint_hit, hrec, Option.toList_none, List.append_nil]; exact hinv
  | some bp =>
    by_cases hbudget : bp.max_hits ≤ bp.hit_count
    · simp only [handle_breakpoint_hit, hrec, if_pos hbudget, Option.toList_none,
        List.append_nil]
      exact hinv
    · by_cases hcond : condPasses oracle bp.condition
      · simp only [handle_breakpoint_hit, hrec, if_neg hbudget, if_pos hcond,
          Option.toList_some]
        have hlt : s < st.nextSerial := by
          by_contra hge
          rw [hinv.fresh_recs s (by omega)] at hrec
          cases hrec
        refine ⟨?_, ?_, ?_, ?_, ?_, ?_⟩
        · intro s0 h0
          replace h0 : st.nextSerial ≤ s0 := h0
          show recGet (recSet st.recs s _) s0 = _
          rw [recGet_recSet, if_neg (by omega)]
          exact hinv.fresh_recs s0 h0
        · intro s0 h0
          replace h0 : st.nextSerial ≤ s0 := h0
          rw [emitsFor_append, hinv.fresh_ems s0 h0, emitsFor_single]
          rw [if_neg (show ¬ s = s0 by omega)]
          rfl
        · intro s0 bp0 h0
          replace h0 : recGet (recSet st.recs s { bp with hit_count := bp.hit_count + 1 }) s0
            = Option.some bp0 := h0
          rw [recGet_recSet] at h0
          by_cases hs : s0 = s
          · rw [if_pos hs] at h0
            cases h0
            exact hinv.clamped s bp hrec
          · rw [if_neg hs] at h0
            exact hinv.clamped s0 bp0 h0
        · intro s0 bp0 h0
          replace h0 : recGet (recSet st.recs s { bp with hit_count := bp.hit_count + 1 }) s0
            = Option.some bp0 := h0
          rw [recGet_recSet] at h0
          by_cases hs : s0 = s
          · rw [if_pos hs] at h0
            cases h0
            show bp.hit_count + 1 ≤ bp.max_hits
            omega
          · rw [if_neg hs] at h0
            exact hinv.budget s0 bp0 h0
        · intro s0
          rw [emitsFor_append, List.length_append]
          have hc := hinv.hits_count s0
          by_cases hs : s = s0
          · subst hs
            rw [hitCountOf_some hrec] at hc
            have hup : recGet (recSet st.recs s { bp with hit_count := bp.hit_count + 1 }) s
                = Option.some { bp with hit_count := bp.hit_count + 1 } := by
              rw [recGet_recSet, if_pos rfl]
            have h2 : hitCountOf
                { st with recs := recSet st.recs s { bp with hit_count := bp.hit_count + 1 } } s
                = bp.hit_count + 1 := hitCountOf_some hup
            rw [h2]
            have h3 : (emitsFor
                [⟨s, bp.backend_id, bp.file_path, bp.line_number, bp.hit_count + 1⟩] s).length
                = 1 := by
              simp [emitsFor]
            rw [h3]
            omega
          · have hup : recGet (recSet st.recs s { bp with hit_count := bp.hit_count + 1 }) s0
                = recGet st.recs s0 := by
              rw [recGet_recSet, if_neg (show ¬ s0 = s by omega)]
            have h2 : hitCountOf
                { st with recs := recSet st.recs s { bp with hit_count := bp.hit_count + 1 } } s0
                = hitCountOf st s0 := by
              cases hg : recGet st.recs s0 with
              | none => rw [hitCountOf_none (hup.trans hg), hitCountOf_none hg]
              | some bq => rw [hitCountOf_some (hup.trans hg), hitCountOf_some hg]
            rw [h2]
            have h3 : (emitsFor
                [⟨s, bp.backend_id, bp.file_path, bp.line_number, bp.hit_count + 1⟩] s0).length
                = 0 := by
              simp [emitsFor, hs]
            rw [h3]
            omega
        · intro k b hkb s0 hs0
          replace hkb : (k, b) ∈ st.byFile := hkb
          obtain ⟨bp0, hget, hnp⟩ := hinv.files k b hkb s0 hs0
          by_cases hs : s0 = s
          · subst hs
            rw [hrec] at hget
            cases hget
            refine ⟨{ bp with hit_count := bp.hit_count + 1 }, ?_, hnp⟩
            show recGet (recSet st.recs s0 _) s0 = _
            rw [recGet_recSet, if_pos rfl]
          · refine ⟨bp0, ?_, hnp⟩
            show recGet (recSet st.recs s _) s0 = _
            rw [recGet_recSet, if_neg hs]
            exact hget
      · simp only [handle_breakpoint_hit, hrec, if_neg hbudget, if_neg hcond,
          Option.toList_none, List.append_nil]
        exact hinv

/-- The emitted message of a hit names the handled serial. -/
theorem handle_hit_serial (oracle : String → Option Bool) (st : TraceState)
    (s : Nat) (m : HitMessage)
    (h : (handle_breakpoint_hit oracle st s).2 = Option.some m) : m.serial = s := by
  cases hrec : recGet st.recs s with
  | none => rw [handle_breakpoint_hit, hrec] at h; cases h
  | some bp =>
    by_cases hbudget : bp.max_hits ≤ bp.hit_count
    · rw [handle_breakpoint_hit, hrec] at h
      simp only [if_pos hbudget] at h
      cases h
    · by_cases hcond : condPasses oracle bp.condition
      · rw [handle_breakpoint_hit, hrec] at h
        simp only [if_neg hbudget, if_pos hcond] at h
        cases h
        rfl
      · rw [handle_breakpoint_hit, hrec] at h
        simp only [if_neg hbudget, if_neg hcond] at h
        cases h

/-- `processBucket` preserves the invariant. -/
theorem TMInv_processBucket (oracle : String → Option Bool)
    (bucket : List Nat) : ∀ (st : TraceState) (ems : List HitMessage)
    (lineNo : Int), TMInv st ems →
    TMInv (processBucket oracle st bucket lineNo).1
      (ems ++ (processBucket oracle st bucket lineNo).2) := by
  induction bucket with
  | nil =>
    intro st ems lineNo hinv
    simpa [processBucket] using hinv
  | cons s rest ih =>
    intro st ems lineNo hinv
    rw [processBucket]
    cases hrec : recGet st.recs s with
    | none => exact ih st ems lineNo hinv
    | some bp =>
      dsimp only
      by_cases hline : bp.line_number = lineNo
      · rw [if_pos hline]
        have h1 := TMInv_handle_hit oracle st s ems hinv
        have h2 := ih (handle_breakpoint_hit oracle st s).1
          (ems ++ ((handle_breakpoint_hit oracle st s).2).toList) lineNo h1
        simpa [List.append_assoc] using h2
      · rw [if_neg hline]
        exact ih st ems lineNo hinv

/-- Emitted messages of a bucket pass name bucket members. -/
theorem processBucket_serials (oracle : String → Option Bool)
    (bucket : List Nat) : ∀ (st : TraceState) (lineNo : Int) (e : HitMessage),
    e ∈ (processBucket oracle st bucket lineNo).2 → e.serial ∈ bucket := by
  induction bucket with
  | nil => intro st lineNo e he; simp [processBucket] at he
  | cons s rest ih =>
    intro st lineNo e he
    rw [processBucket] at he
    cases hrec : recGet st.recs s with
    | none =>
      rw [hrec] at he
      exact List.mem_cons_of_mem _ (ih st lineNo e he)
    | some bp =>
      rw [hrec] at he
      dsimp only at he
      by_cases hline : bp.line_number = lineNo
      · rw [if_pos hline] at he
        rcases List.mem_append.1 he with h | h
        · cases hm : (handle_breakpoint_hit oracle st s).2 with
          | none => rw [hm] at h; simp at h
          | some m =>
            rw [hm] at h
            simp only [Option.toList_some, List.mem_singleton] at h
            subst h
            rw [handle_hit_serial oracle st s e hm]
            exact List.mem_cons_self _ _
        · exact List.mem_cons_of_mem _
            (ih (handle_breakpoint_hit oracle st s).1 lineNo e h)
      · rw [if_neg hline] at he
        exact List.mem_cons_of_mem _ (ih st lineNo e he)

/-- Left part of an appended heap keeps its entries. -/
theorem recGet_append_left {l : List (Nat × Breakpoint)} {s : Nat} {bp : Breakpoint}
    (l₂ : List (Nat × Breakpoint)) (h : recGet l s = Option.some bp) :
    recGet (l ++ l₂) s = Option.some bp := by
  rw [recGet_append, h]

/-- A suffix-selected bucket is a file-index member whose key stands in
the suffix relation with the event path. -/
theorem suffixBucket_key (byFile : List (String × List Nat)) (np : String)
    (bucket : List Nat) (h : suffixBucket byFile np = Option.some bucket) :
    ∃ k, (k, bucket) ∈ byFile ∧ (pyEndsWith np k || pyEndsWith k np) = true := by
  rw [suffixBucket] at h
  cases hf : byFile.find? (fun p => pyEndsWith np p.1 || pyEndsWith p.1 np) with
  | none => rw [hf] at h; cases h
  | some p =>
    rw [hf] at h
    cases h
    have hmem := List.mem_of_find?_eq_some hf
    have hpred := List.find?_some hf
    exact ⟨p.1, by simpa using hmem, hpred⟩

/-- Any selected bucket is a file-index member whose key is the event's
normalized path or stands in the suffix relation with it. -/
theorem selectBucket_key (byFile : List (String × List Nat)) (np : String)
    (bucket : List Nat) (h : selectBucket byFile np = Option.some bucket) :
    ∃ k, (k, bucket) ∈ byFile ∧
      (k = np ∨ (pyEndsWith np k || pyEndsWith k np) = true) := by
  rw [selectBucket] at h
  cases ha : assocGet byFile np with
  | some b =>
    rw [ha] at h
    dsimp only at h
    by_cases hbe : b.isEmpty
    · rw [if_pos hbe] at h
      obtain ⟨k, hk, hrel⟩ := suffixBucket_key byFile np bucket h
      exact ⟨k, hk, Or.inr hrel⟩
    · rw [if_neg hbe] at h
      cases h
      exact ⟨np, assocGet_mem _ _ _ ha, Or.inl rfl⟩
  | none =>
    rw [ha] at h
    obtain ⟨k, hk, hrel⟩ := suffixBucket_key byFile np bucket h
    exact ⟨k, hk, Or.inr hrel⟩

/-- `set_breakpoint` preserves the invariant. -/
theorem TMInv_set (st : TraceState) (ems : List HitMessage) (bid path : String)
    (lineNo : Int) (cond : Option String) (m : Int) (hinv : TMInv st ems) :
    TMInv (set_breakpoint st bid path lineNo cond m) ems := by
  refine ⟨?_, ?_, ?_, ?_, ?_, ?_⟩
  · intro s0 h0
    replace h0 : st.nextSerial + 1 ≤ s0 := h0
    show recGet (st.recs ++ [(st.nextSerial, _)]) s0 = _
    rw [recGet_append, hinv.fresh_recs s0 (by omega)]
    show recGet [(st.nextSerial, _)] s0 = _
    rw [recGet, if_neg (by omega)]
    rfl
  · intro s0 h0
    replace h0 : st.nextSerial + 1 ≤ s0 := h0
    exact hinv.fresh_ems s0 (by omega)
  · intro s0 bp0 h0
    replace h0 : recGet (st.recs ++
      [(st.nextSerial, ⟨bid, path, lineNo, cond, (min (max m 1) 50).toNat, 0,
        normalizePath path⟩)]) s0 = Option.some bp0 := h0
    rw [recGet_append] at h0
    cases hg : recGet st.recs s0 with
    | some bq =>
      rw [hg] at h0
      cases h0
      exact hinv.clamped s0 _ hg
    | none =>
      rw [hg] at h0
      rw [recGet] at h0
      by_cases hs : st.nextSerial = s0
      · rw [if_pos hs] at h0
        cases h0
        refine ⟨?_, ?_⟩
        · show 1 ≤ (min (max m 1) 50).toNat
          omega
        · show (min (max m 1) 50).toNat ≤ 50
          omega
      · rw [if_neg hs] at h0
        rw [recGet] at h0
        cases h0
  · intro s0 bp0 h0
    replace h0 : recGet (st.recs ++
      [(st.nextSerial, ⟨bid, path, lineNo, cond, (min (max m 1) 50).toNat, 0,
        normalizePath path⟩)]) s0 = Option.some bp0 := h0
    rw [recGet_append] at h0
    cases hg : recGet st.recs s0 with
    | some bq =>
      rw [hg] at h0
      cases h0
      exact hinv.budget s0 _ hg
    | none =>
      rw [hg] at h0
      rw [recGet] at h0
      by_cases hs : st.nextSerial = s0
      · rw [if_pos hs] at h0
        cases h0
        show 0 ≤ _
        omega
      · rw [if_neg hs] at h0
        rw [recGet] at h0
        cases h0
  · intro s0
    have hc := hinv.hits_count s0
    show _ = hitCountOf { st with
      nextSerial := st.nextSerial + 1,
      recs := st.recs ++ [(st.nextSerial, ⟨bid, path, lineNo, cond,
        (min (max m 1) 50).toNat, 0, normalizePath path⟩)],
      byId := _, byFile := _ } s0
    cases hg : recGet st.recs s0 with
    | some bq =>
      rw [hitCountOf_some hg] at hc
      rw [hitCountOf_some (by
        show recGet (st.recs ++ _) s0 = _
        exact recGet_append_left _ hg)]
      exact hc
    | none =>
      rw [hitCountOf_none hg] at hc
      by_cases hs : st.nextSerial = s0
      · subst hs
        rw [hinv.fresh_ems st.nextSerial (by omega)]
        rw [hitCountOf_some (by
          show recGet (st.recs ++ [(st.nextSerial, _)]) st.nextSerial = _
          rw [recGet_append, hg]
          show recGet [(st.nextSerial, _)] st.nextSerial = _
          rw [recGet, if_pos rfl])]
        rfl
      · rw [hitCountOf_none (by
          show recGet (st.recs ++ [(st.nextSerial, _)]) s0 = _
          rw [recGet_append, hg]
          show recGet [(st.nextSerial, _)] s0 = _
          rw [recGet, if_neg hs]
          rfl)]
        exact hc
  · intro k b hkb s0 hs0
    replace hkb : (k, b) ∈ (match assocGet st.byFile (normalizePath path) with
      | Option.none => st.byFile ++ [(normalizePath path, [st.nextSerial])]
      | Option.some bucket =>
          assocSet st.byFile (normalizePath path) (bucket ++ [st.nextSerial])) := hkb
    have hnew : recGet (st.recs ++ [(st.nextSerial,
        (⟨bid, path, lineNo, cond, (min (max m 1) 50).toNat, 0,
          normalizePath path⟩ : Breakpoint))]) st.nextSerial =
        Option.some ⟨bid, path, lineNo, cond, (min (max m 1) 50).toNat, 0,
          normalizePath path⟩ := by
      rw [recGet_append, hinv.fresh_recs st.nextSerial (le_refl _)]
      show recGet [(st.nextSerial, _)] st.nextSerial = _
      rw [recGet, if_pos rfl]
    have hold : ∀ kk bb, (kk, bb) ∈ st.byFile → ∀ ss ∈ bb,
        ∃ bp, recGet (st.recs ++ [(st.nextSerial,
          (⟨bid, path, lineNo, cond, (min (max m 1) 50).toNat, 0,
            normalizePath path⟩ : Breakpoint))]) ss = Option.some bp ∧
          bp.normalized_path = kk := by
      intro kk bb hbb ss hss
      obtain ⟨bp0, hg, hnp⟩ := hinv.files kk bb hbb ss hss
      exact ⟨bp0, recGet_append_left _ hg, hnp⟩
    cases ha : assocGet st.byFile (normalizePath path) with
    | none =>
      rw [ha] at hkb
      rcases List.mem_append.1 hkb with hmem | hmem
      · exact hold k b hmem s0 hs0
      · rw [List.mem_singleton] at hmem
        cases hmem
        rw [List.mem_singleton] at hs0
        subst hs0
        exact ⟨_, hnew, rfl⟩
    | some bucket =>
      rw [ha] at hkb
      rcases mem_assocSet _ _ _ _ hkb with hmem | hmem
      · cases hmem
        rcases List.mem_append.1 hs0 with hs | hs
        · exact hold _ bucket (assocGet_mem _ _ _ ha) s0 hs
        · rw [List.mem_singleton] at hs
          subst hs
          exact ⟨_, hnew, rfl⟩
      · exact hold k b hmem s0 hs0

/-- `remove_breakpoint` preserves the invariant. -/
theorem TMInv_remove (st : TraceState) (ems : List HitMessage) (bid : String)
    (hinv : TMInv st ems) : TMInv (remove_breakpoint st bid) ems := by
  rw [remove_breakpoint]
  cases hid : assocGet st.byId bid with
  | none => exact hinv
  | some s =>
    refine ⟨hinv.fresh_recs, hinv.fresh_ems, hinv.clamped, hinv.budget,
      hinv.hits_count, ?_⟩
    intro k b hkb s0 hs0
    replace hkb : (k, b) ∈ assocSet st.byFile (removedNormPath st s)
      (((assocGet st.byFile (removedNormPath st s)).getD []).filter
        (fun s' =>
          match recGet st.recs s' with
          | Option.some bp => !(bp.backend_id == bid)
          | Option.none => true)) := hkb
    rcases mem_assocSet _ _ _ _ hkb with hmem | hmem
    · cases hmem
      cases hb : assocGet st.byFile (removedNormPath st s) with
      | none =>
        rw [hb] at hs0
        simp at hs0
      | some bucket =>
        rw [hb] at hs0
        exact hinv.files _ bucket (assocGet_mem _ _ _ hb) s0
          (List.mem_of_mem_filter hs0)
    · exact hinv.files k b hmem s0 hs0

/-- `lineEvent` preserves the invariant. -/
theorem TMInv_lineEvent (oracle : String → Option Bool) (st : TraceState)
    (path : String) (lineNo : Int) (ems : List HitMessage) (hinv : TMInv st ems) :
    TMInv (lineEvent oracle st path lineNo).1
      (ems ++ (lineEvent oracle st path lineNo).2) := by
  rw [lineEvent]
  by_cases h1 : st.byFile.isEmpty
  · rw [if_pos h1]
    simpa using hinv
  · rw [if_neg h1]
    by_cases h2 : path = ""
    · rw [if_pos h2]
      simpa using hinv
    · rw [if_neg h2]
      cases hb : selectBucket st.byFile (normalizePath path) with
      | none => simpa using hinv
      | some bucket =>
        dsimp only
        by_cases hbe : bucket.isEmpty
        · rw [if_pos hbe]
          simpa using hinv
        · rw [if_neg hbe]
          exact TMInv_processBucket oracle bucket st ems lineNo hinv

/-- One operation preserves the invariant. -/
theorem TMInv_traceStep (acc : TraceState × List HitMessage) (op : TraceOp)
    (hinv : TMInv acc.1 acc.2) : TMInv (traceStep acc op).1 (traceStep acc op).2 := by
  obtain ⟨st, ems⟩ := acc
  cases op with
  | set bid p l c m => exact TMInv_set st ems bid p l c m hinv
  | remove bid => exact TMInv_remove st ems bid hinv
  | line oracle p l => exact TMInv_lineEvent oracle st p l ems hinv

/-- Every reachable trace-manager state satisfies the invariant. -/
theorem TMInv_runOps (ops : List TraceOp) :
    TMInv (runOps ops).1 (runOps ops).2 := by
  rw [runOps]
  have h : ∀ acc, TMInv acc.1 acc.2 →
      TMInv (ops.foldl traceStep acc).1 (ops.foldl traceStep acc).2 := by
    induction ops with
    | nil => intro acc h; exact h
    | cons op rest ih =>
      intro acc h
      exact ih (traceStep acc op) (TMInv_traceStep acc op h)
  exact h (initTraceState, []) TMInv_init

/-! ### Hit counts never decrease -/

/-- Equal heap lookups give equal live counts. -/
theorem hitCountOf_recs (st st' : TraceState) (s : Nat)
    (h : recGet st'.recs s = recGet st.recs s) : hitCountOf st' s = hitCountOf st s := by
  rw [hitCountOf, hitCountOf, h]

/-- An update that does not touch a serial preserves its live count. -/
theorem hitCountOf_le_of_recGet_eq (st st' : TraceState) (s : Nat)
    (h : recGet st'.recs s = recGet st.recs s) : hitCountOf st s ≤ hitCountOf st' s :=
  le_of_eq (hitCountOf_recs st st' s h).symm

/-- A hit never lowers any live count. -/
theorem hitCountOf_mono_handle (oracle : String → Option Bool) (st : TraceState)
    (s1 s : Nat) :
    hitCountOf st s ≤ hitCountOf (handle_breakpoint_hit oracle st s1).1 s := by
  cases hrec : recGet st.recs s1 with
  | none => simp only [handle_breakpoint_hit, hrec]; exact le_refl _
  | some bp =>
    by_cases hbudget : bp.max_hits ≤ bp.hit_count
    · simp only [handle_breakpoint_hit, hrec, if_pos hbudget]
      exact le_refl _
    · by_cases hcond : condPasses oracle bp.condition
      · simp only [handle_breakpoint_hit, hrec, if_neg hbudget, if_pos hcond]
        by_cases hs : s = s1
        · subst hs
          rw [hitCountOf_some hrec]
          rw [hitCountOf_some (show recGet
            (recSet st.recs s { bp with hit_count := bp.hit_count + 1 }) s =
              Option.some { bp with hit_count := bp.hit_count + 1 } by
            rw [recGet_recSet, if_pos rfl])]
          show bp.hit_count ≤ bp.hit_count + 1
          omega
        · exact hitCountOf_le_of_recGet_eq st _ s (show recGet
            (recSet st.recs s1 { bp with hit_count := bp.hit_count + 1 }) s =
              recGet st.recs s by rw [recGet_recSet, if_neg hs])
      · simp only [handle_breakpoint_hit, hrec, if_neg hbudget, if_neg hcond]
        exact le_refl _

/-- A bucket pass never lowers any live count. -/
theorem hitCountOf_mono_processBucket (oracle : String → Option Bool)
    (bucket : List Nat) : ∀ (st : TraceState) (lineNo : Int) (s : Nat),
    hitCountOf st s ≤ hitCountOf (processBucket oracle st bucket lineNo).1 s := by
  induction bucket with
  | nil => intro st lineNo s; exact le_refl _
  | cons s1 rest ih =>
    intro st lineNo s
    rw [processBucket]
    cases hrec : recGet st.recs s1 with
    | none => exact ih st lineNo s
    | some bp =>
      dsimp only
      by_cases hline : bp.line_number = lineNo
      · rw [if_pos hline]
        exact le_trans (hitCountOf_mono_handle oracle st s1 s)
          (ih (handle_breakpoint_hit oracle st s1).1 lineNo s)
      · rw [if_neg hline]
        exact ih st lineNo s

/-- No operation lowers any live count: hit counts only increase. -/
theorem hitCountOf_mono_traceStep (st : TraceState) (ems : List HitMessage)
    (op : TraceOp) (s : Nat) :
    hitCountOf st s ≤ hitCountOf (traceStep (st, ems) op).1 s := by
  cases op with
  | set bid p l c m =>
    show hitCountOf st s ≤ hitCountOf (set_breakpoint st bid p l c m) s
    cases hg : recGet st.recs s with
    | some bq =>
      exact hitCountOf_le_of_recGet_eq st _ s
        (show recGet (st.recs ++ [(st.nextSerial, _)]) s = recGet st.recs s by
          rw [recGet_append, hg])
    | none =>
      rw [hitCountOf_none hg]
      exact Nat.zero_le _
  | remove bid =>
    show hitCountOf st s ≤ hitCountOf (remove_breakpoint st bid) s
    rw [remove_breakpoint]
    cases hid : assocGet st.byId bid with
    | none => exact le_refl _
    | some s1 => exact le_refl _
  | line oracle p l =>
    show hitCountOf st s ≤ hitCountOf (lineEvent oracle st p l).1 s
    rw [lineEvent]
    by_cases h1 : st.byFile.isEmpty
    · rw [if_pos h1]
    · rw [if_neg h1]
      by_cases h2 : p = ""
      · rw [if_pos h2]
      · rw [if_neg h2]
        cases hb : selectBucket st.byFile (normalizePath p) with
        | none => exact le_refl _
        | some bucket =>
          dsimp only
          by_cases hbe : bucket.isEmpty
          · rw [if_pos hbe]
          · rw [if_neg hbe]
            exact hitCountOf_mono_processBucket oracle bucket st l s

/-! ## Claim C5: amended theorem -/

/-- **C5 (amended).** Every installed `Breakpoint` object has `max_hits`
clamped to `[1, 50]`; its `hit_count` starts at 0, never decreases under
any operation, never exceeds `max_hits`; and the transcript carries
exactly `hit_count` `breakpoint_hit` messages from that object — so each
object emits at most `max_hits` messages.  (Per `backend_id` the bound
fails across reinstallation, which resets the budget and leaves the stale
object live: see the counterexample.) -/
theorem C5_hit_budget_amended (ops : List TraceOp) :
    (∀ s bp, recGet (runOps ops).1.recs s = Option.some bp →
      1 ≤ bp.max_hits ∧ bp.max_hits ≤ 50 ∧ bp.hit_count ≤ bp.max_hits ∧
      (emitsFor (runOps ops).2 s).length = bp.hit_count) ∧
    ∀ (st : TraceState) (ems : List HitMessage) (op : TraceOp) (s : Nat),
      hitCountOf st s ≤ hitCountOf (traceStep (st, ems) op).1 s := by
  constructor
  · intro s bp h
    have hinv := TMInv_runOps ops
    refine ⟨(hinv.clamped s bp h).1, (hinv.clamped s bp h).2, hinv.budget s bp h, ?_⟩
    rw [hinv.hits_count s, hitCountOf_some h]
  · intro st ems op s
    exact hitCountOf_mono_traceStep st ems op s

/-- Witness for C5 (amended): one breakpoint installed and hit once. -/
theorem C5_hit_budget_amended_witness :
    1 ≤ (⟨"a", "x.py", 1, Option.none, 1, 1, "x.py"⟩ : Breakpoint).max_hits ∧
    (⟨"a", "x.py", 1, Option.none, 1, 1, "x.py"⟩ : Breakpoint).max_hits ≤ 50 ∧
    (⟨"a", "x.py", 1, Option.none, 1, 1, "x.py"⟩ : Breakpoint).hit_count ≤
      (⟨"a", "x.py", 1, Option.none, 1, 1, "x.py"⟩ : Breakpoint).max_hits ∧
    (emitsFor (runOps [TraceOp.set "a" "x.py" 1 Option.none 1,
        TraceOp.line (fun _ => Option.none) "x.py" 1]).2 0).length =
      (⟨"a", "x.py", 1, Option.none, 1, 1, "x.py"⟩ : Breakpoint).hit_count :=
  (C5_hit_budget_amended [TraceOp.set "a" "x.py" 1 Option.none 1,
      TraceOp.line (fun _ => Option.none) "x.py" 1]).1 0
    ⟨"a", "x.py", 1, Option.none, 1, 1, "x.py"⟩ (by decide)

/-! ## Claim C6: amended theorem -/

/-- **C6 (amended).** A breakpoint fires at a line event only if its
normalized path equals the event's normalized path or one is a suffix of
the other; the converse fails because only one bucket is considered — the
exact-match bucket when present and nonempty, else the first
suffix-matching bucket in index insertion order (see the counterexample
for a suffix-matching breakpoint that is never considered). -/
theorem C6_path_match_amended (ops : List TraceOp) (oracle : String → Option Bool)
    (path : String) (lineNo : Int) :
    ∀ e ∈ (lineEvent oracle (runOps ops).1 path lineNo).2,
      ∃ bp, recGet (runOps ops).1.recs e.serial = Option.some bp ∧
        (bp.normalized_path = normalizePath path ∨
         pyEndsWith (normalizePath path) bp.normalized_path = true ∨
         pyEndsWith bp.normalized_path (normalizePath path) = true) := by
  intro e he
  have hinv := TMInv_runOps ops
  rw [lineEvent] at he
  by_cases h1 : (runOps ops).1.byFile.isEmpty
  · rw [if_pos h1] at he
    simp at he
  · rw [if_neg h1] at he
    by_cases h2 : path = ""
    · rw [if_pos h2] at he
      simp at he
    · rw [if_neg h2] at he
      cases hb : selectBucket (runOps ops).1.byFile (normalizePath path) with
      | none =>
        rw [hb] at he
        simp at he
      | some bucket =>
        rw [hb] at he
        dsimp only at he
        by_cases hbe : bucket.isEmpty
        · rw [if_pos hbe] at he
          simp at he
        · rw [if_neg hbe] at he
          have hser := processBucket_serials oracle bucket (runOps ops).1 lineNo e he
          obtain ⟨k, hk, hrel⟩ := selectBucket_key _ _ _ hb
          obtain ⟨bp, hg, hnp⟩ := hinv.files k bucket hk e.serial hser
          refine ⟨bp, hg, ?_⟩
          rcases hrel with rfl | hsuf
          · exact Or.inl hnp
          · rw [Bool.or_eq_true] at hsuf
            rcases hsuf with h | h
            · refine Or.inr (Or.inl ?_)
              rw [hnp]
              exact h
            · refine Or.inr (Or.inr ?_)
              rw [hnp]
              exact h

/-- Witness for C6 (amended): an exact-path hit. -/
theorem C6_path_match_amended_witness :
    ∃ bp, recGet (runOps [TraceOp.set "a" "x.py" 1 Option.none 1]).1.recs
        (⟨0, "a", "x.py", 1, 1⟩ : HitMessage).serial = Option.some bp ∧
      (bp.normalized_path = normalizePath "x.py" ∨
       pyEndsWith (normalizePath "x.py") bp.normalized_path = true ∨
       pyEndsWith bp.normalized_path (normalizePath "x.py") = true) :=
  C6_path_match_amended [TraceOp.set "a" "x.py" 1 Option.none 1]
    (fun _ => Option.none) "x.py" 1 ⟨0, "a", "x.py", 1, 1⟩ (by decide)

/-! ## Backend transport: offline queue
(`aivory_monitor/transport/connection.py`)

`_send` serializes the message and, while not connected-and-authenticated,
enqueues it on the bounded `queue.Queue(maxsize=100)` with drop-oldest
overflow (`put_nowait`; on `Full`: `get_nowait` then `put_nowait`).  On
the `registered` message the queue is drained in FIFO order onto the
socket.  The model follows the success path of the socket send (an I/O
failure re-enqueues, which claim C7 does not exercise); `sent` is the
sequence of frames actually transmitted, in order. -/

/-- Transport state: the two flags, the bounded offline queue of
serialized frames, and the transcript of transmitted frames. -/
structure ConnState where
  connected : Bool
  authenticated : Bool
  queue : List String
  sent : List String
deriving DecidableEq, Repr

/-- `put_nowait` with drop-oldest recovery on `Full` (capacity 100). -/
def queuePut (q : List String) (m : String) : List String :=
  if q.length < 100 then q ++ [m] else q.drop 1 ++ [m]

/-- `BackendConnection._send`: transmit directly (then flush the queue)
when connected and authenticated, otherwise enqueue. -/
def sendMsg (st : ConnState) (m : String) : ConnState :=
  if st.connected && st.authenticated then
    { st with sent := st.sent ++ [m] ++ st.queue, queue := [] }
  else
    { st with queue := queuePut st.queue m }

/-- `BackendConnection._handle_registered`: become authenticated and
drain the queue in FIFO order. -/
def handleRegistered (st : ConnState) : ConnState :=
  { st with authenticated := true, sent := st.sent ++ st.queue, queue := [] }

/-- One enqueue keeps exactly the last 100 of the extended sequence. -/
theorem queuePut_eq (q : List String) (m : String) (h : q.length ≤ 100) :
    queuePut q m = (q ++ [m]).drop ((q ++ [m]).length - 100) := by
  rw [queuePut]
  by_cases hlt : q.length < 100
  · rw [if_pos hlt]
    have : (q ++ [m]).length - 100 = 0 := by simp [List.length_append]; omega
    rw [this, List.drop_zero]
  · rw [if_neg hlt]
    have h100 : q.length = 100 := by omega
    have : (q ++ [m]).length - 100 = 1 := by simp [List.length_append]; omega
    rw [this, List.drop_append_of_le_length (by omega)]

/-- The queue never exceeds its capacity. -/
theorem queuePut_length (q : List String) (m : String) (h : q.length ≤ 100) :
    (queuePut q m).length ≤ 100 := by
  rw [queuePut]
  by_cases hlt : q.length < 100
  · rw [if_pos hlt]
    simp [List.length_append]
    omega
  · rw [if_neg hlt]
    simp [List.length_append, List.length_drop]
    omega

set_option maxRecDepth 4000 in
/-- Folding enqueues over a bounded queue keeps exactly the last 100
elements of the concatenated sequence, in order. -/
theorem foldl_queuePut (msgs : List String) : ∀ q, q.length ≤ 100 →
    msgs.foldl queuePut q = (q ++ msgs).drop ((q ++ msgs).length - 100) := by
  induction msgs with
  | nil =>
    intro q h
    simp only [List.foldl_nil, List.append_nil]
    rw [show q.length - 100 = 0 by omega, List.drop_zero]
  | cons m rest ih =>
    intro q h
    rw [List.foldl_cons, ih (queuePut q m) (queuePut_length q m h), queuePut_eq q m h]
    have hd : (q ++ [m]).length - 100 ≤ (q ++ [m]).length := Nat.sub_le _ _
    rw [show (q ++ [m]).drop ((q ++ [m]).length - 100) ++ rest =
        ((q ++ [m]) ++ rest).drop ((q ++ [m]).length - 100) from
      (List.drop_append_of_le_length hd).symm]
    rw [List.drop_drop]
    rw [show (q ++ [m]) ++ rest = q ++ m :: rest from List.append_assoc q [m] rest]
    congr 1
    simp only [List.length_drop, List.length_append, List.length_cons, List.length_nil]
    omega

/-- Sends while unauthenticated only accumulate in the queue. -/
theorem foldl_sendMsg_offline (msgs : List String) :
    ∀ q sent, msgs.foldl sendMsg ⟨true, false, q, sent⟩ =
      ⟨true, false, msgs.foldl queuePut q, sent⟩ := by
  induction msgs with
  | nil => intro q sent; rfl
  | cons m rest ih =>
    intro q sent
    rw [List.foldl_cons, List.foldl_cons]
    have : sendMsg ⟨true, false, q, sent⟩ m = ⟨true, false, queuePut q m, sent⟩ := by
      rw [sendMsg]
      rfl
    rw [this, ih]

/-! ## Claim C7 -/

/-- **C7.** The offline queue is a bounded FIFO of capacity 100 with
drop-oldest overflow: sending `K > 100` messages while not authenticated
and then receiving `registered` transmits exactly the last 100 messages,
in submission order. -/
theorem C7_offline_queue (msgs : List String) (h : 100 < msgs.length) :
    (handleRegistered (msgs.foldl sendMsg ⟨true, false, [], []⟩)).sent =
      msgs.drop (msgs.length - 100) ∧
    (handleRegistered (msgs.foldl sendMsg ⟨true, false, [], []⟩)).sent.length = 100 := by
  rw [foldl_sendMsg_offline msgs [] []]
  rw [handleRegistered]
  constructor
  · show [] ++ msgs.foldl queuePut [] = _
    rw [List.nil_append, foldl_queuePut msgs [] (by simp)]
    simp
  · show ([] ++ msgs.foldl queuePut []).length = 100
    rw [List.nil_append, foldl_queuePut msgs [] (by simp)]
    simp only [List.nil_append, List.length_drop]
    omega

/-- Witness for C7: 101 distinct messages. -/
theorem C7_offline_queue_witness :
    (handleRegistered (((List.range 101).map toString).foldl sendMsg
        ⟨true, false, [], []⟩)).sent =
      ((List.range 101).map toString).drop
        (((List.range 101).map toString).length - 100) ∧
    (handleRegistered (((List.range 101).map toString).foldl sendMsg
        ⟨true, false, [], []⟩)).sent.length = 100 :=
  C7_offline_queue ((List.range 101).map toString) (by simp)

/-! ## Backend transport: reconnect loop

`_connection_loop` under permanent connection failure and no shutdown:
each iteration attempts to connect (`_connect_and_run` raises), increments
`_reconnect_attempts`, exits once the counter reaches
`_max_reconnect_attempts = 10`, and otherwise sleeps
`min(reconnect_delay · 2^(attempts-1), 60)` seconds with
`reconnect_delay = 1.0` — all delay values are integral, so seconds are
`Nat`. -/

/-- One observable event of the connection worker. -/
inductive ConnEvent where
  | attempt
  | wait (seconds : Nat)
deriving DecidableEq, Repr

/-- The loop body starting from attempts counter `a` (every attempt
fails). -/
def connLoopFrom (a : Nat) : List ConnEvent :=
  ConnEvent.attempt ::
    (if h : 10 ≤ a + 1 then []
     else ConnEvent.wait (min (1 * 2 ^ (a + 1 - 1)) 60) :: connLoopFrom (a + 1))
termination_by 10 - a
decreasing_by omega

/-- The full trace of the worker when every connection attempt fails. -/
def connTrace : List ConnEvent := connLoopFrom 0

/-- The sleep durations of a trace, in order. -/
def waitsOf (t : List ConnEvent) : List Nat :=
  t.filterMap fun e =>
    match e with
    | ConnEvent.wait d => Option.some d
    | ConnEvent.attempt => Option.none

/-- The number of connection attempts in a trace. -/
def attemptsOf (t : List ConnEvent) : Nat :=
  (t.filter fun e => e == ConnEvent.attempt).length

/-! ## Claim C8 -/

/-- **C8 (counterexample).** There is no 10th reconnection attempt, hence
no 10th reconnection delay: the worker makes the initial attempt plus 9
delayed reconnections (10 failures in all) and exits, so the claim's
"for every i in [1, 10]" fails at `i = 10` — the delay list has only 9
entries. -/
theorem C8_counterexample :
    ¬ (∀ i, 1 ≤ i → i ≤ 10 → (waitsOf connTrace).get? (i - 1) =
        Option.some (min (1 * 2 ^ (i - 1)) 60)) := by
  intro hc
  have h10 := hc 10 (by omega) (by omega)
  have hw : waitsOf connTrace = [1, 2, 4, 8, 16, 32, 60, 60, 60] := by
    simp [connTrace, connLoopFrom, waitsOf]
  rw [hw] at h10
  cases h10

/-- **C8 (amended).** Under permanent connection failure the worker makes
10 connection attempts in all — the initial one plus 9 reconnections —
and then exits with no further attempts; the delay before the i-th
reconnection, for i in [1, 9], is `min(1s · 2^(i-1), 60s)`, i.e. the
delays are exactly `[1, 2, 4, 8, 16, 32, 60, 60, 60]` seconds. -/
theorem C8_backoff_amended :
    waitsOf connTrace = [1, 2, 4, 8, 16, 32, 60, 60, 60] ∧
    (∀ i, 1 ≤ i → i ≤ 9 → (waitsOf connTrace).get? (i - 1) =
      Option.some (min (1 * 2 ^ (i - 1)) 60)) ∧
    attemptsOf connTrace = 10 := by
  have hw : waitsOf connTrace = [1, 2, 4, 8, 16, 32, 60, 60, 60] := by
    simp [connTrace, connLoopFrom, waitsOf]
  refine ⟨hw, ?_, by simp [connTrace, connLoopFrom, attemptsOf]⟩
  intro i h1 h9
  rw [hw]
  interval_cases i <;> decide

/-- Witness for C8 (amended): the 7th reconnection delay is already
capped at 60 seconds. -/
theorem C8_backoff_amended_witness :
    waitsOf connTrace = [1, 2, 4, 8, 16, 32, 60, 60, 60] ∧
    (waitsOf connTrace).get? (7 - 1) = Option.some (min (1 * 2 ^ (7 - 1)) 60) ∧
    attemptsOf connTrace = 10 :=
  ⟨C8_backoff_amended.1, C8_backoff_amended.2.1 7 (by decide) (by decide),
   C8_backoff_amended.2.2⟩

end Aivory
